import Mathlib

/-!
Verification development for the imap_error_mail_analyzer pipeline.

Text is modelled as `List Char` (`Str`); Python regular-expression
operations used by the sources are embedded as explicit, executable
scanners over character lists.  Python `dict`s are modelled as ordered
association lists with overwrite-on-assignment, and calls into the
Python standard library (hashing, RFC-2822 date parsing, MIME
encoded-word decoding, address parsing) are oracle parameters bundled
in `Ext`.  Fallible operations return `Except PyErr`.
-/

set_option maxHeartbeats 1000000

namespace IEMA

abbrev Str := List Char

/-- Python regex `\s` (ASCII fragment): space, tab, newline, carriage
return, vertical tab, form feed. -/
def pyWsChar (c : Char) : Bool :=
  decide (c ∈ ([' ', '\t', '\n', '\r', '\x0b', '\x0c'] : List Char))

/-- Python regex `[^\S\n]` — whitespace other than newline. -/
def hwsChar (c : Char) : Bool :=
  decide (c ∈ ([' ', '\t', '\r', '\x0b', '\x0c'] : List Char))

/-- The class `[ \t]` used by the blank-line regex. -/
def spaceTabChar (c : Char) : Bool :=
  decide (c ∈ ([' ', '\t'] : List Char))

/-- The class `[\s\-]` used by the diagnostic error-code regex. -/
def wsDashChar (c : Char) : Bool :=
  pyWsChar c || c == '-'

def isDigitCh (c : Char) : Bool :=
  '0' ≤ c && c ≤ '9'

def isAlphaCh (c : Char) : Bool :=
  ('a' ≤ c && c ≤ 'z') || ('A' ≤ c && c ≤ 'Z')

def isWordCh (c : Char) : Bool :=
  isAlphaCh c || isDigitCh c || c == '_'

def isAlnumDashCh (c : Char) : Bool :=
  isAlphaCh c || isDigitCh c || c == '-'

def lowerStr (s : Str) : Str :=
  s.map Char.toLower

/-- `str.lstrip()` part of Python `.strip()`. -/
def lstripWs (s : Str) : Str :=
  s.dropWhile pyWsChar

/-- Remove the maximal whitespace suffix (`str.rstrip()`). -/
def rstripWs : Str → Str
  | [] => []
  | c :: t =>
    match rstripWs t with
    | [] => if pyWsChar c then [] else [c]
    | r => c :: r

/-- Python `str.strip()`. -/
def pyStrip (s : Str) : Str :=
  rstripWs (lstripWs s)

/-- Replacement step of `re.sub` for a run pattern `p{n,}`: a maximal run
of `p`-characters of length at least `n` is replaced by `repl`, shorter
runs are kept.  `run` holds the pending run in reverse. -/
def flushRun (n : Nat) (repl : Str) (run : Str) : Str :=
  if n ≤ run.length then repl else run.reverse

def crbGo (p : Char → Bool) (n : Nat) (repl : Str) : Str → Str → Str
  | [], run => flushRun n repl run
  | c :: t, run =>
    if p c then crbGo p n repl t (c :: run)
    else flushRun n repl run ++ c :: crbGo p n repl t []

/-- `re.sub(p-run of length ≥ n, repl, s)` — leftmost, greedy, hence
operating on maximal runs. -/
def collapseRunsBy (p : Char → Bool) (n : Nat) (repl : Str) (s : Str) : Str :=
  crbGo p n repl s []

def splitNlGo : Str → Str → List Str
  | [], acc => [acc.reverse]
  | c :: t, acc =>
    if c == '\n' then acc.reverse :: splitNlGo t []
    else splitNlGo t (c :: acc)

/-- Split on `'\n'` (Python `str.split("\n")` / the line structure seen by
a `re.MULTILINE` anchor pair). -/
def splitNl (s : Str) : List Str :=
  splitNlGo s []

def joinNl : List Str → Str
  | [] => []
  | [l] => l
  | l :: ls => l ++ '\n' :: joinNl ls

def neLinesGo : Str → Str → List Str
  | [], acc => if acc.isEmpty then [] else [acc.reverse]
  | c :: t, acc =>
    if c == '\n' then
      (if acc.isEmpty then neLinesGo t [] else acc.reverse :: neLinesGo t [])
    else neLinesGo t (c :: acc)

/-- The nonempty maximal newline-free segments of a string, in order. -/
def neLines (s : Str) : List Str :=
  neLinesGo s []

def runBoundedGo (p : Char → Bool) (k : Nat) : Str → Nat → Bool
  | [], cnt => cnt ≤ k
  | c :: t, cnt =>
    if p c then runBoundedGo p k t (cnt + 1)
    else decide (cnt ≤ k) && runBoundedGo p k t 0

/-- Every maximal run of `p`-characters in `s` has length at most `k`. -/
def runBounded (p : Char → Bool) (k : Nat) (s : Str) : Bool :=
  runBoundedGo p k s 0

/-- `re.search`: try a position matcher at every start position, leftmost
success wins. -/
def searchFirst (f : Str → Option α) : Str → Option α
  | [] => f []
  | c :: t => (f (c :: t)) <|> searchFirst f t

/-- Try a position matcher at the string start and after every newline
(`re.MULTILINE` `^`). -/
def slsGo (f : Str → Option α) : Str → Option α
  | [] => none
  | c :: t => if c == '\n' then (f t) <|> slsGo f t else slsGo f t

def searchLineStarts (f : Str → Option α) (s : Str) : Option α :=
  (f s) <|> slsGo f s

/-- Match a case-sensitive literal at the current position, returning the
remainder. -/
def dropLit : Str → Str → Option Str
  | [], s => some s
  | _ :: _, [] => none
  | c :: lt, x :: xs => if x == c then dropLit lt xs else none

/-- Match a literal case-insensitively (`re.IGNORECASE`, ASCII); the
pattern is given in lowercase. -/
def dropLitCI : Str → Str → Option Str
  | [], s => some s
  | _ :: _, [] => none
  | c :: lt, x :: xs => if x.toLower == c then dropLitCI lt xs else none

def dropChar (c : Char) : Str → Option Str
  | x :: xs => if x == c then some xs else none
  | [] => none

/-- Substring test (`kw in s`). -/
def containsSub (s kw : Str) : Bool :=
  (searchFirst (dropLit kw) s).isSome

/-- Association-list model of a Python `dict` (insertion order kept,
assignment overwrites in place). -/
def alookup : List (Str × β) → Str → Option β
  | [], _ => none
  | (k, v) :: t, key => if k == key then some v else alookup t key

def aset : List (Str × β) → Str → β → List (Str × β)
  | [], key, val => [(key, val)]
  | (k, v) :: t, key, val =>
    if k == key then (k, val) :: t else (k, v) :: aset t key val

/-- `{**a, **b}` — keys of `b` win. -/
def amerge (a b : List (Str × β)) : List (Str × β) :=
  b.foldl (fun acc kv => aset acc kv.1 kv.2) a

/-- `list(dict.fromkeys(xs))` — deduplicate keeping first occurrences. -/
def dedupeGo : List Str → List Str → List Str
  | [], _ => []
  | x :: xs, seen =>
    if seen.contains x then dedupeGo xs seen else x :: dedupeGo xs (x :: seen)

def dedupe (xs : List Str) : List Str :=
  dedupeGo xs []

/-- Split on a single character (Python `str.split(",")`,
`str.split("\n")` when the splitter is not `'\n'`). -/
def splitChGo (sep : Char) : Str → Str → List Str
  | [], acc => [acc.reverse]
  | c :: t, acc =>
    if c == sep then acc.reverse :: splitChGo sep t []
    else splitChGo sep t (c :: acc)

def splitCh (sep : Char) (s : Str) : List Str :=
  splitChGo sep s []

/-- Python `str.splitlines()` (the terminators appearing in this
development: `\n`, `\r\n`, `\r`, `\v`, `\f`). -/
def pySplitlinesGo : Str → Str → List Str
  | [], acc => if acc.isEmpty then [] else [acc.reverse]
  | '\r' :: '\n' :: t, acc => acc.reverse :: pySplitlinesGo t []
  | c :: t, acc =>
    if c == '\n' || c == '\r' || c == '\x0b' || c == '\x0c' then
      acc.reverse :: pySplitlinesGo t []
    else pySplitlinesGo t (c :: acc)

def pySplitlines (s : Str) : List Str :=
  pySplitlinesGo s []

/-- `re.split(r"\n\n+", s)`: pieces between maximal runs of two or more
newlines.  `pend` counts pending newlines (saturated at 2). -/
def splitSecGo : Str → Str → Nat → List Str
  | [], acc, pend =>
    if pend == 0 then [acc.reverse]
    else if pend == 1 then [('\n' :: acc).reverse]
    else [acc.reverse, []]
  | c :: t, acc, pend =>
    if c == '\n' then splitSecGo t acc (min (pend + 1) 2)
    else if pend == 0 then splitSecGo t (c :: acc) 0
    else if pend == 1 then splitSecGo t (c :: '\n' :: acc) 0
    else acc.reverse :: splitSecGo t [c] 0

def splitSections (s : Str) : List Str :=
  splitSecGo s [] 0

/-- `email_utils.normalize_whitespace`: collapse runs of two or more
horizontal whitespace characters to one space (`re.sub(r"[^\S\n]{2,}", " ")`),
blank out lines of spaces/tabs (`re.sub(r"^[ \t]+$", "", re.MULTILINE)`),
collapse runs of three or more newlines to two (`re.sub(r"\n{3,}", "\n\n")`),
then `strip()`. -/
def blankLineF (l : Str) : Str :=
  if !l.isEmpty && l.all spaceTabChar then [] else l

def normalize_whitespace (s : Str) : Str :=
  let s1 := collapseRunsBy hwsChar 2 [' '] s
  let s2 := joinNl ((splitNl s1).map blankLineF)
  let s3 := collapseRunsBy (fun c => c == '\n') 3 ['\n', '\n'] s2
  pyStrip s3

/-- Position matcher for `_RE_DSN_STATUS = [Ss]tatus\s*:\s*(5\.\d+\.\d+)`. -/
def statusAt (s : Str) : Option Str := do
  let r0 ←
    match s with
    | c :: t => if c == 'S' || c == 's' then some t else none
    | [] => none
  let r1 ← dropLit (("tatus").data) r0
  let r2 ← dropChar ':' (r1.dropWhile pyWsChar)
  let r3 ← dropChar '5' (r2.dropWhile pyWsChar)
  let r4 ← dropChar '.' r3
  let d1 := r4.takeWhile isDigitCh
  if d1.isEmpty then none else
  let r5 ← dropChar '.' (r4.dropWhile isDigitCh)
  let d2 := r5.takeWhile isDigitCh
  if d2.isEmpty then none else
  some ('5' :: '.' :: d1 ++ '.' :: d2)

def find_dsn_status (s : Str) : Option Str :=
  searchFirst statusAt s

/-- Position matcher for
`_RE_DIAGNOSTIC = [Dd]iagnostic-[Cc]ode\s*:\s*smtp\s*;\s*(.+?)(?:\r?\n(?!\s)|$)`
compiled with `re.MULTILINE | re.DOTALL`.  Because `$` in MULTILINE mode
matches before every `'\n'`, the lazy capture always ends at the first
newline after its (non-whitespace) start; when only whitespace follows the
`;` the backtracked capture is whitespace-only, and the caller's `.strip()`
reduces it to the empty string, which we return directly. -/
def diagnosticAt (s : Str) : Option Str := do
  let r0 ←
    match s with
    | c :: t => if c == 'D' || c == 'd' then some t else none
    | [] => none
  let r1 ← dropLit (("iagnostic-").data) r0
  let r2 ←
    match r1 with
    | c :: t => if c == 'C' || c == 'c' then some t else none
    | [] => none
  let r3 ← dropLit (("ode").data) r2
  let r4 ← dropChar ':' (r3.dropWhile pyWsChar)
  let r5 ← dropLit (("smtp").data) (r4.dropWhile pyWsChar)
  let r6 ← dropChar ';' (r5.dropWhile pyWsChar)
  let r7 := r6.dropWhile pyWsChar
  if r7.isEmpty then (if r6.isEmpty then none else some [])
  else some (r7.takeWhile (fun c => !(c == '\n')))

def find_diagnostic (s : Str) : Option Str :=
  searchFirst diagnosticAt s

/-- Position matcher for
`[Ff]inal-[Rr]ecipient\s*:\s*(?:rfc822|RFC822)\s*;\s*(\S+)` (and the
`Original-` variant via `recipientAt`). -/
def recipientAt (first : Char × Char) (mid : Str) (second : Char × Char)
    (rest : Str) (s : Str) : Option Str := do
  let r0 ←
    match s with
    | c :: t => if c == first.1 || c == first.2 then some t else none
    | [] => none
  let r1 ← dropLit mid r0
  let r2 ←
    match r1 with
    | c :: t => if c == second.1 || c == second.2 then some t else none
    | [] => none
  let r3 ← dropLit rest r2
  let r4 ← dropChar ':' (r3.dropWhile pyWsChar)
  let r5 := r4.dropWhile pyWsChar
  let r6 ←
    (dropLit (("rfc822").data) r5) <|> (dropLit (("RFC822").data) r5)
  let r7 ← dropChar ';' (r6.dropWhile pyWsChar)
  let r8 := r7.dropWhile pyWsChar
  let tok := r8.takeWhile (fun c => !pyWsChar c)
  if tok.isEmpty then none else some tok

def finalRecipientAt (s : Str) : Option Str :=
  recipientAt ('F', 'f') (("inal-").data) ('R', 'r') (("ecipient").data) s

def origRecipientAt (s : Str) : Option Str :=
  recipientAt ('O', 'o') (("riginal-").data) ('R', 'r') (("ecipient").data) s

def find_final_recipient (s : Str) : Option Str :=
  searchFirst finalRecipientAt s

def find_original_recipient (s : Str) : Option Str :=
  searchFirst origRecipientAt s

/-- `re.match(r"(5\d{2})[\s\-]+(.*)", diagnostic, re.DOTALL)`: anchored;
greedy separator run, then the rest of the string.  Returns the pair
(3-digit code, trailing text). -/
def matchErrCode (d : Str) : Option (Str × Str) :=
  match d with
  | '5' :: c1 :: c2 :: rest =>
    if isDigitCh c1 && isDigitCh c2 then
      if (rest.takeWhile wsDashChar).isEmpty then none
      else some (['5', c1, c2], rest.dropWhile wsDashChar)
    else none
  | _ => none

/-- `re.sub(r"\s+", " ", s)`. -/
def squashWs (s : Str) : Str :=
  collapseRunsBy pyWsChar 1 [' '] s

/-- Position matcher for `_RE_CATEGORY = CATEGORY\s*:\s*(\S+)` with
`re.IGNORECASE`. -/
def categoryAt (s : Str) : Option Str := do
  let r1 ← dropLitCI (("category").data) s
  let r2 ← dropChar ':' (r1.dropWhile pyWsChar)
  let r3 := r2.dropWhile pyWsChar
  let tok := r3.takeWhile (fun c => !pyWsChar c)
  if tok.isEmpty then none else some tok

def find_category (s : Str) : Option Str :=
  searchFirst categoryAt s

/-- Position matcher for `_RE_REASON = REASON\s*:\s*(.+)` with
`re.IGNORECASE` (no DOTALL: the greedy capture stops at a newline).  When
only whitespace follows the colon the backtracked capture is
whitespace-only and strips to empty; it is returned pre-stripped. -/
def reasonAt (s : Str) : Option Str := do
  let r1 ← dropLitCI (("reason").data) s
  let r2 ← dropChar ':' (r1.dropWhile pyWsChar)
  let r3 := r2.dropWhile pyWsChar
  if r3.isEmpty then
    (if r2.any (fun c => !(c == '\n')) then some [] else none)
  else some (r3.takeWhile (fun c => !(c == '\n')))

def find_reason (s : Str) : Option Str :=
  searchFirst reasonAt s

/-- Position matcher for `^Subject:\s*(.+?)$` / `^From:\s*(.+?)$` under
`re.MULTILINE` (used with `searchLineStarts`); same backtracking analysis
as `reasonAt`. -/
def headLineAt (lit : Str) (s : Str) : Option Str := do
  let r1 ← dropLit lit s
  let r2 := r1.dropWhile pyWsChar
  if r2.isEmpty then
    (if r1.any (fun c => !(c == '\n')) then some [] else none)
  else some (r2.takeWhile (fun c => !(c == '\n')))

/-- `_EMAIL_PATTERN = [\w.+-]+@[\w.-]+\.\w+` — match at a position,
returning the match and the remainder after it. -/
def emailLocalCh (c : Char) : Bool :=
  isWordCh c || c == '.' || c == '+' || c == '-'

def emailDomCh (c : Char) : Bool :=
  isWordCh c || c == '.' || c == '-'

/-- Backtracking for `[\w.-]+\.\w+`: the last dot of the greedy domain run
followed by a word character wins; returns (before-dot, word run after). -/
def lastDotSplit : Str → Option (Str × Str)
  | [] => none
  | c :: t =>
    match lastDotSplit t with
    | some (pre, run) => some (c :: pre, run)
    | none =>
      if c == '.' then
        match t with
        | x :: _ => if isWordCh x then some ([], t.takeWhile isWordCh) else none
        | [] => none
      else none

def emailAt (s : Str) : Option (Str × Str) :=
  let lp := s.takeWhile emailLocalCh
  if lp.isEmpty then none else
  match s.dropWhile emailLocalCh with
  | '@' :: r =>
    let dom := r.takeWhile emailDomCh
    match lastDotSplit dom with
    | some (pre, run) =>
      some (lp ++ '@' :: pre ++ '.' :: run,
        dom.drop (pre.length + 1 + run.length) ++ r.dropWhile emailDomCh)
    | none => none
  | _ => none

/-- `_EMAIL_PATTERN.findall` (fuelled by the input length; every match
consumes at least one character). -/
def findAllEmailsGo : Nat → Str → List Str
  | 0, _ => []
  | _ + 1, [] => []
  | fuel + 1, c :: t =>
    match emailAt (c :: t) with
    | some (m, rest) => m :: findAllEmailsGo fuel rest
    | none => findAllEmailsGo fuel t

def findAllEmails (s : Str) : List Str :=
  findAllEmailsGo s.length s

/-- External collaborators from the Python standard library, passed as
oracles: MIME encoded-word decoding (`email.header.decode_header` plus the
space-join in `decode_header_value`), `email.utils.parseaddr` (address
part), `hashlib.sha256(...).hexdigest()`, and RFC-2822 date parsing with
local-time formatting (`parsedate_to_datetime(...).astimezone().strftime`,
`none` meaning a `ValueError`/`TypeError`). -/
structure Ext where
  decodeHeader : Str → Str
  parseAddr : Str → Str
  sha256hex : Str → Str
  localizeDate : Str → Option Str

/- A decoded `email.message.Message`: either a simple part whose payload
(`get_payload(decode=True)`, charset-decoded; `none` for a `None` payload)
is text, or a multipart whose payload is a list of messages. -/
mutual
inductive Msg where
  | leaf (headers : List (Str × Str)) (ctype : Str) (payload : Option Str)
  | multi (headers : List (Str × Str)) (ctype : Str) (parts : MsgList)
inductive MsgList where
  | nil
  | cons (m : Msg) (ms : MsgList)
end

def msgHeaders : Msg → List (Str × Str)
  | .leaf h _ _ => h
  | .multi h _ _ => h

/-- `Message.get_content_type()` (already lower-cased by the email
library). -/
def msgCT : Msg → Str
  | .leaf _ ct _ => ct
  | .multi _ ct _ => ct

def msgIsMultipart : Msg → Bool
  | .leaf _ _ _ => false
  | .multi _ _ _ => true

/-- `get_payload(decode=True)`: `None` on a multipart. -/
def msgPayloadText : Msg → Option Str
  | .leaf _ _ p => p
  | .multi _ _ _ => none

def MsgList.toList : MsgList → List Msg
  | .nil => []
  | .cons m ms => m :: ms.toList

def msgParts : Msg → List Msg
  | .leaf _ _ _ => []
  | .multi _ _ ps => ps.toList

/- `Message.walk()`: the message itself, then each subpart depth-first. -/
mutual
def msgWalk : Msg → List Msg
  | .leaf h c p => [.leaf h c p]
  | .multi h c ps => .multi h c ps :: msgsWalk ps
def msgsWalk : MsgList → List Msg
  | .nil => []
  | .cons m ms => msgWalk m ++ msgsWalk ms
end

/- Model of `Message.as_string()` for the delivery-status join branch:
header block, blank line, then the payload. -/
mutual
def msgAsString : Msg → Str
  | .leaf hs _ p =>
    (hs.map (fun kv => kv.1 ++ ':' :: ' ' :: kv.2 ++ ['\n'])).flatten
      ++ '\n' :: p.getD []
  | .multi hs _ ps =>
    (hs.map (fun kv => kv.1 ++ ':' :: ' ' :: kv.2 ++ ['\n'])).flatten
      ++ '\n' :: msgsAsString ps
def msgsAsString : MsgList → Str
  | .nil => []
  | .cons m ms => msgAsString m ++ msgsAsString ms
end

/-- `Message.get(name, default)` — case-insensitive, first match. -/
def msgGet (m : Msg) (name default : Str) : Str :=
  match (msgHeaders m).find? (fun kv => lowerStr kv.1 == lowerStr name) with
  | some kv => kv.2
  | none => default

/-- `email_utils.decode_header_value`. -/
def decode_header_value (ext : Ext) (v : Str) : Str :=
  if v.isEmpty then [] else ext.decodeHeader v

/-- `email_utils.get_header`. -/
def get_header (ext : Ext) (m : Msg) (name : Str) : Str :=
  decode_header_value ext (msgGet m name [])

/-- `email_utils.get_address`. -/
def get_address (ext : Ext) (m : Msg) (name : Str) : Str :=
  ext.parseAddr (get_header ext m name)

/-- `email_utils.clean_html_body`, step 1: `<body[^>]*>(.*)</body>` with
`re.DOTALL | re.IGNORECASE` — first opening tag, greedy capture up to the
last closing tag. -/
def bodyOpenAt (s : Str) : Option Str := do
  let r1 ← dropChar '<' s
  let r2 ← dropLitCI (("body").data) r1
  dropChar '>' (r2.dropWhile (fun c => !(c == '>')))

def closeTagAt (tag : Str) (s : Str) : Option Str := do
  let r1 ← dropChar '<' s
  let r2 ← dropChar '/' r1
  let r3 ← dropLitCI tag r2
  dropChar '>' r3

/-- Content before the last `</body>` of the remainder (greedy `(.*)`). -/
def takeToLastClose (tag : Str) : Str → Option Str
  | [] => none
  | c :: t =>
    match takeToLastClose tag t with
    | some rest => some (c :: rest)
    | none => if (closeTagAt tag (c :: t)).isSome then some [] else none

def bodyContentAt (s : Str) : Option Str := do
  let r ← bodyOpenAt s
  takeToLastClose (("body").data) r

/-- Opening tag of a style/script block: `<tag[^>]*>`. -/
def openTagAt (tag : Str) (s : Str) : Option Str := do
  let r1 ← dropChar '<' s
  let r2 ← dropLitCI tag r1
  dropChar '>' (r2.dropWhile (fun c => !(c == '>')))

/-- `re.sub(r"<tag[^>]*>.*?</tag>", "", re.DOTALL | re.IGNORECASE)`:
lazy capture — each block ends at the nearest closing tag. -/
def blockAt (tag : Str) (s : Str) : Option Str := do
  let r ← openTagAt tag s
  searchFirst (closeTagAt tag) r

def removeBlocksGo (tag : Str) : Nat → Str → Str
  | 0, s => s
  | _ + 1, [] => []
  | fuel + 1, c :: t =>
    match blockAt tag (c :: t) with
    | some rest => removeBlocksGo tag fuel rest
    | none => c :: removeBlocksGo tag fuel t

def removeBlocks (tag : Str) (s : Str) : Str :=
  removeBlocksGo tag s.length s

/-- `email_utils.clean_html_body`. -/
def clean_html_body (html : Str) : Str :=
  let text :=
    match searchFirst bodyContentAt html with
    | some content => content
    | none => html
  removeBlocks (("script").data) (removeBlocks (("style").data) text)

/-- `email_utils.get_body_text`: first nonempty `text/plain` payload found
by walking; direct payload for non-multipart messages. -/
def get_body_text (m : Msg) : Str :=
  if msgIsMultipart m then
    match (msgWalk m).find? (fun p =>
        msgCT p == ("text/plain").data && !((msgPayloadText p).getD []).isEmpty) with
    | some p => (msgPayloadText p).getD []
    | none => []
  else
    match msgPayloadText m with
    | some s => if s.isEmpty then [] else s
    | none => []

/-- One collected piece of `get_all_body_text`'s walk. -/
def allBodyPiece (p : Msg) : Option Str :=
  match msgPayloadText p with
  | none => none
  | some s =>
    if s.isEmpty then none
    else if msgCT p == ("text/plain").data then some s
    else if msgCT p == ("text/html").data then some (clean_html_body s)
    else none

/-- `email_utils.get_all_body_text`. -/
def get_all_body_text (m : Msg) : Str :=
  if msgIsMultipart m then joinNl ((msgWalk m).filterMap allBodyPiece)
  else
    match msgPayloadText m with
    | some s =>
      if s.isEmpty then []
      else if msgCT m == ("text/html").data then clean_html_body s
      else s
    | none => []

/-- `email_utils.get_body_parts` (plain pieces, html pieces). -/
def get_body_parts (m : Msg) : Str × Str :=
  if msgIsMultipart m then
    ((joinNl ((msgWalk m).filterMap (fun p =>
        match msgPayloadText p with
        | none => none
        | some s =>
          if s.isEmpty then none
          else if msgCT p == ("text/plain").data then some s else none))),
     (joinNl ((msgWalk m).filterMap (fun p =>
        match msgPayloadText p with
        | none => none
        | some s =>
          if s.isEmpty then none
          else if msgCT p == ("text/html").data then some (clean_html_body s)
          else none))))
  else
    match msgPayloadText m with
    | some s =>
      if s.isEmpty then ([], [])
      else if msgCT m == ("text/html").data then ([], clean_html_body s)
      else (s, [])
    | none => ([], [])

/- `_collect_notification_parts`: iterate a multipart's payload, skipping
`message/rfc822` and `message/delivery-status` subtrees. -/
mutual
def collectNotifMsg : Msg → List Str × List Str
  | .leaf _ _ _ => ([], [])
  | .multi _ _ ps => collectNotifL ps
def collectNotifL : MsgList → List Str × List Str
  | .nil => ([], [])
  | .cons p ps =>
    let cur : List Str × List Str :=
      if msgCT p == ("message/rfc822").data
          || msgCT p == ("message/delivery-status").data then ([], [])
      else if msgIsMultipart p then collectNotifMsg p
      else
        match msgPayloadText p with
        | none => ([], [])
        | some s =>
          if s.isEmpty then ([], [])
          else if msgCT p == ("text/plain").data then ([s], [])
          else if msgCT p == ("text/html").data then ([clean_html_body s], [])
          else ([], [])
    let rest := collectNotifL ps
    (cur.1 ++ rest.1, cur.2 ++ rest.2)
end

/- `_collect_original_parts`: bodies of `message/rfc822` parts.  (The
email library represents an rfc822 payload as a one-element message list;
a text payload there cannot arise from parsing.) -/
mutual
def collectOrigMsg : Msg → List Str × List Str
  | .leaf _ _ _ => ([], [])
  | .multi _ _ ps => collectOrigL ps
def collectOrigL : MsgList → List Str × List Str
  | .nil => ([], [])
  | .cons p ps =>
    let cur : List Str × List Str :=
      if msgCT p == ("message/rfc822").data then
        match msgParts p with
        | inner :: _ =>
          let (plain, html) := get_body_parts inner
          ((if plain.isEmpty then [] else [plain]),
           (if html.isEmpty then [] else [html]))
        | [] => ([], [])
      else if msgIsMultipart p then collectOrigMsg p
      else ([], [])
    let rest := collectOrigL ps
    (cur.1 ++ rest.1, cur.2 ++ rest.2)
end

/-- `email_utils.get_separated_body_parts`. -/
def get_separated_body_parts (m : Msg) : Str × Str × Str × Str :=
  if msgIsMultipart m then
    let (np, nh) := collectNotifMsg m
    let (op, oh) := collectOrigMsg m
    (joinNl np, joinNl nh, joinNl op, joinNl oh)
  else
    match msgPayloadText m with
    | some s =>
      if s.isEmpty then ([], [], [], [])
      else if msgCT m == ("text/html").data then ([], clean_html_body s, [], [])
      else (s, [], [], [])
    | none => ([], [], [], [])

/-- `email_utils.compute_message_hash`. -/
def compute_message_hash (ext : Ext) (m : Msg) : Str :=
  let msg_id := pyStrip (get_header ext m (("Message-ID").data))
  if !msg_id.isEmpty then ext.sha256hex msg_id
  else
    let date_val := get_header ext m (("Date").data)
    let from_val := get_address ext m (("From").data)
    let subject_val := get_header ext m (("Subject").data)
    let body_val := (get_body_text m).take 200
    ext.sha256hex (date_val ++ '|' :: from_val ++ '|' :: subject_val ++ '|' :: body_val)

/-- `date_utils.format_email_date`: empty for a missing header, local-time
formatting via the oracle, the raw string on parse failure. -/
def format_email_date (ext : Ext) (raw_date : Str) : Str :=
  if raw_date.isEmpty then []
  else
    match ext.localizeDate raw_date with
    | some s => s
    | none => raw_date

abbrev AList := List (Str × Str)

/-- Field-line match `([A-Za-z][A-Za-z0-9\-]*):\s*(.*)` of
`_parse_dsn_fields` (the second group is stripped by the caller). -/
def fieldLineMatch (line : Str) : Option (Str × Str) :=
  match line with
  | c :: t =>
    if isAlphaCh c then
      match t.dropWhile isAlnumDashCh with
      | ':' :: r2 => some (c :: t.takeWhile isAlnumDashCh,
          pyStrip (r2.dropWhile pyWsChar))
      | _ => none
    else none
  | [] => none

/-- `Diagnostic-Code` → `diagnostic_code`. -/
def normFieldName (n : Str) : Str :=
  (lowerStr n).map (fun c => if c == '-' then '_' else c)

/-- The line loop of `_parse_dsn_fields` (`cur` is the pending
key/value). -/
def pdfGo : List Str → Option (Str × Str) → AList → AList
  | [], cur, fields =>
    (match cur with
     | some kv => aset fields kv.1 kv.2
     | none => fields)
  | line :: rest, cur, fields =>
    if line.isEmpty || line.all pyWsChar then pdfGo rest cur fields
    else
      match line with
      | c :: _ =>
        if pyWsChar c && cur.isSome then
          (match cur with
           | some kv => pdfGo rest (some (kv.1, kv.2 ++ ' ' :: pyStrip line)) fields
           | none => pdfGo rest none fields)
        else
          let fields2 :=
            match cur with
            | some kv => aset fields kv.1 kv.2
            | none => fields
          match fieldLineMatch line with
          | some nv => pdfGo rest (some (normFieldName nv.1, nv.2)) fields2
          | none => pdfGo rest none fields2
      | [] => pdfGo rest cur fields

/-- `bounce_parser._parse_dsn_fields`. -/
def parse_dsn_fields (s : Str) : AList :=
  pdfGo (pySplitlines s) none []

structure DsnEntry where
  error_code : Str
  error_message : Str
  to_addr : Str
  delivery_status : AList
deriving DecidableEq

/-- `diagnostic = diag_match.group(1).strip() if diag_match else ""`. -/
def dsn_diagnostic_of (sec : Str) : Str :=
  match find_diagnostic sec with
  | some g => pyStrip g
  | none => []

/-- The per-section body of the results loop of `_extract_dsn_errors`
(sections without a `Status` match are skipped). -/
def dsn_error_of_section (per_message_fields : AList) (sec : Str) :
    Option DsnEntry :=
  match find_dsn_status sec with
  | none => none
  | some st =>
    let recipient :=
      match (find_final_recipient sec) <|> (find_original_recipient sec) with
      | some r => pyStrip r
      | none => []
    let diagnostic := dsn_diagnostic_of sec
    let code_match := if diagnostic.isEmpty then none else matchErrCode diagnostic
    let error_code0 :=
      match code_match with
      | some cm => cm.1
      | none => []
    let error_message0 :=
      match code_match with
      | some cm => pyStrip (squashWs cm.2)
      | none => diagnostic
    let error_code := if error_code0.isEmpty then st else error_code0
    let error_message :=
      if error_message0.isEmpty then ("DSN status ").data ++ st else error_message0
    some { error_code, error_message, to_addr := recipient,
           delivery_status := amerge per_message_fields (parse_dsn_fields sec) }

/-- The delivery-status text selected by `_extract_dsn_errors`: decoded
payload of the first `message/delivery-status` part (a falsy payload with
a message-list payload is serialized and joined). -/
def dsn_text_of (m : Msg) : Str :=
  match (msgWalk m).find? (fun p => msgCT p == ("message/delivery-status").data) with
  | none => []
  | some p =>
    match p with
    | .leaf _ _ (some s) => s
    | .leaf _ _ none => []
    | .multi _ _ ps => joinNl (ps.toList.map msgAsString)

/-- `bounce_parser._extract_dsn_errors`. -/
def extract_dsn_errors (m : Msg) : List DsnEntry :=
  let dsn_text := dsn_text_of m
  if dsn_text.isEmpty then []
  else
    let sections := splitSections dsn_text
    let per_message_fields :=
      match sections with
      | s0 :: _ => if (find_dsn_status s0).isNone then parse_dsn_fields s0 else []
      | [] => []
    sections.filterMap (dsn_error_of_section per_message_fields)

/-- `bounce_parser._extract_failed_recipients`. -/
def extract_failed_recipients (ext : Ext) (m : Msg) (body_text : Str) :
    List Str :=
  let x_failed := get_header ext m (("X-Failed-Recipients").data)
  if !x_failed.isEmpty then
    ((splitCh ',' x_failed).map pyStrip).filter (fun a => !a.isEmpty)
  else
    let kws := [("recipient").data, ("rcpt to").data,
      ("original-recipient").data, ("final-recipient").data]
    let recipients := (splitCh '\n' body_text).flatMap (fun line =>
      if kws.any (fun kw => containsSub (lowerStr line) kw) then
        findAllEmails line
      else [])
    dedupe recipients

/-- First rfc822-embedded header recovered during a walk (`if subj: return
subj` keeps walking past empty results). -/
def firstWalkHeader (ext : Ext) (m : Msg) (name : Str)
    (useAddress : Bool) : Option Str :=
  (msgWalk m).findSome? (fun p =>
    if msgCT p == ("message/rfc822").data then
      match msgParts p with
      | inner :: _ =>
        let v := if useAddress then get_address ext inner name
          else get_header ext inner name
        if v.isEmpty then none else some v
      | [] => none
    else none)

/-- `bounce_parser._extract_original_subject`. -/
def extract_original_subject (ext : Ext) (m : Msg) (body_text : Str) : Str :=
  let walked :=
    if msgIsMultipart m then
      firstWalkHeader ext m (("Subject").data) false
    else none
  match walked with
  | some s => s
  | none =>
    match searchLineStarts (headLineAt (("Subject:").data)) body_text with
    | some g => decode_header_value ext (pyStrip g)
    | none => []

/-- `bounce_parser._extract_original_from`. -/
def extract_original_from (ext : Ext) (m : Msg) (body_text : Str) : Str :=
  let addr := get_address ext m (("To").data)
  if !addr.isEmpty then addr
  else
    let walked :=
      if msgIsMultipart m then
        firstWalkHeader ext m (("From").data) true
      else none
    match walked with
    | some a => a
    | none =>
      match searchLineStarts (headLineAt (("From:").data)) body_text with
      | some g =>
        (match findAllEmails (pyStrip g) with
         | a :: _ => a
         | [] => [])
      | none => []

structure BounceRecord where
  date : Str
  error_code : Str
  error_message : Str
  from_addr : Str
  to_addr : Str
  subject : Str
  body_plain : Str
  body_html : Str
  body_plain_original : Str
  body_html_original : Str
  delivery_status : AList
  folder : Str
deriving DecidableEq

instance : Inhabited BounceRecord :=
  ⟨⟨[], [], [], [], [], [], [], [], [], [], [], []⟩⟩

/-- Positional backfill of missing recipients, index clamped
(`failed_recipients[min(i, len(failed_recipients) - 1)]`). -/
def backfillRecipients (errors : List DsnEntry) (fr : List Str) :
    List DsnEntry :=
  errors.mapIdx (fun i e =>
    if e.to_addr.isEmpty && !fr.isEmpty then
      { e with to_addr := fr.getD (min i (fr.length - 1)) [] }
    else e)

/-- `bounce_parser.extract_bounces` (`_MAX_BODY_LEN = 1000`). -/
def extract_bounces (ext : Ext) (m : Msg) (folder sender_address : Str) :
    List BounceRecord :=
  let date := format_email_date ext (get_header ext m (("Date").data))
  let body_text := get_all_body_text m
  let errors := extract_dsn_errors m
  if errors.isEmpty then []
  else
    let from_addr :=
      let f := extract_original_from ext m body_text
      if f.isEmpty then sender_address else f
    let original_subject :=
      let s := extract_original_subject ext m body_text
      if s.isEmpty then get_header ext m (("Subject").data) else s
    let failed_recipients := extract_failed_recipients ext m body_text
    let errors2 := backfillRecipients errors failed_recipients
    let parts := get_separated_body_parts m
    let plain_snippet := (normalize_whitespace parts.1).take 1000
    let html_snippet := (normalize_whitespace parts.2.1).take 1000
    let orig_plain_snippet := (normalize_whitespace parts.2.2.1).take 1000
    let orig_html_snippet := (normalize_whitespace parts.2.2.2).take 1000
    errors2.map (fun e =>
      { date, error_code := e.error_code, error_message := e.error_message,
        from_addr, to_addr := e.to_addr, subject := original_subject,
        body_plain := plain_snippet, body_html := html_snippet,
        body_plain_original := orig_plain_snippet,
        body_html_original := orig_html_snippet,
        delivery_status := e.delivery_status, folder })

structure CategoryInfo where
  description : Str
  prompt : Str
  excluded : Bool
deriving DecidableEq

/-- `utils.categories.CATEGORIES`. -/
def CATEGORIES : List (Str × CategoryInfo) :=
  [ (("ip_block").data,
     { description := ("送信サーバーIP/ホストのブロックリスト登録").data,
       prompt := ("Sending server IP/host blocked on blocklist (Spamhaus, RBL, DNSBL, blacklist)").data,
       excluded := false }),
    (("domain_block").data,
     { description := ("送信ドメインのブロック・ポリシー拒否").data,
       prompt := ("Sending domain blocked or rejected by recipient policy").data,
       excluded := false }),
    (("sender_throttle").data,
     { description := ("送信制限超過・スパムスロットリング・接続数超過").data,
       prompt := ("Sending rate/volume limits exceeded, spam throttling, too many connections").data,
       excluded := false }),
    (("server_error").data,
     { description := ("送信側サーバー停止・ディスク容量・TLS/証明書・内部エラー").data,
       prompt := ("Sending server down, disk full, TLS/certificate issues, internal server error").data,
       excluded := false }),
    (("config_error").data,
     { description := ("DNS設定不備(SPF/DKIM/DMARC)・リレー拒否・ネットワーク/ルーティング").data,
       prompt := ("DNS misconfiguration (SPF/DKIM/DMARC), relay denied (sending server not authorized to relay), network/routing problems").data,
       excluded := false }),
    (("user_unknown").data,
     { description := ("宛先不明・存在しないアドレス・宛先ドメインのタイポ/DNS解決失敗").data,
       prompt := ("Wrong/nonexistent recipient address, recipient domain typo or not found").data,
       excluded := true }),
    (("user_mailbox_full").data,
     { description := ("宛先メールボックスの容量超過").data,
       prompt := ("Recipient mailbox over quota / storage full").data,
       excluded := true }),
    (("user_rate_limit").data,
     { description := ("受信者側のレート制限").data,
       prompt := ("Recipient is receiving mail at a rate that prevents delivery (recipient-side rate limit)").data,
       excluded := true }) ]

/-- `VALID_CATEGORIES = set(CATEGORIES)` (membership test only). -/
def VALID_CATEGORIES : List Str :=
  CATEGORIES.map (fun kv => kv.1)

/-- `utils.categories.is_excluded_category`. -/
def is_excluded_category (category : Str) : Bool :=
  match alookup CATEGORIES category with
  | some info => info.excluded
  | none => false

/-- A Python value stored in the classification `dict`. -/
inductive PyVal where
  | s (v : Str)
  | b (v : Bool)
deriving DecidableEq

def pyTruthy : PyVal → Bool
  | .s v => !v.isEmpty
  | .b v => v

abbrev PyDict := List (Str × PyVal)

/-- `ollama_client._fallback`. -/
def ollamaFallback (reason : Str) : PyDict :=
  [ (("responsible").data, PyVal.s (("unknown").data)),
    (("reason").data,
     PyVal.s (if reason.isEmpty then ("Classification unavailable").data else reason)),
    (("is_excluded").data, PyVal.b false) ]

/-- `responsible = cat_match.group(1).lower().strip() if cat_match else ""`. -/
def category_token (raw_text : Str) : Str :=
  match find_category raw_text with
  | some g => pyStrip (lowerStr g)
  | none => []

/-- `reason = reason_match.group(1).strip() if reason_match else ""`. -/
def reason_token (raw_text : Str) : Str :=
  match find_reason raw_text with
  | some g => pyStrip g
  | none => []

/-- `ollama_client._parse_response`. -/
def parse_response (raw_text : Str) : PyDict :=
  let responsible := category_token raw_text
  let reason := reason_token raw_text
  if !(VALID_CATEGORIES.contains responsible) then ollamaFallback reason
  else
    [ (("responsible").data, PyVal.s responsible),
      (("reason").data, PyVal.s reason),
      (("is_excluded").data, PyVal.b (is_excluded_category responsible)) ]

/-- `OllamaClient.classify_error`, abstracted over the HTTP exchange: the
argument is the `response` text returned by the collaborator for the
constructed prompt, `none` meaning a `requests.RequestException` (the
`except` branch). -/
def classify_error (response : Option Str) : PyDict :=
  match response with
  | some raw_text => parse_response raw_text
  | none => ollamaFallback []

/-- Python exceptions surfacing in the embedded fragment. -/
inductive PyErr where
  | keyError (k : Str)
  | valueError
deriving DecidableEq

instance {ε α : Type} [DecidableEq ε] [DecidableEq α] :
    DecidableEq (Except ε α) := fun a b =>
  match a, b with
  | .ok x, .ok y =>
    if h : x = y then isTrue (by rw [h])
    else isFalse (fun hc => h (by injection hc))
  | .error x, .error y =>
    if h : x = y then isTrue (by rw [h])
    else isFalse (fun hc => h (by injection hc))
  | .ok _, .error _ => isFalse (fun hc => by injection hc)
  | .error _, .ok _ => isFalse (fun hc => by injection hc)

/-- Proleptic-Gregorian `datetime.date`. -/
structure PyDate where
  year : Nat
  month : Nat
  day : Nat
deriving DecidableEq

def isLeap (y : Nat) : Bool :=
  (y % 4 == 0 && !(y % 100 == 0)) || y % 400 == 0

def daysInMonth (y m : Nat) : Nat :=
  match m with
  | 1 => 31
  | 2 => if isLeap y then 29 else 28
  | 3 => 31
  | 4 => 30
  | 5 => 31
  | 6 => 30
  | 7 => 31
  | 8 => 31
  | 9 => 30
  | 10 => 31
  | 11 => 30
  | 12 => 31
  | _ => 0

def daysBeforeMonth (y m : Nat) : Nat :=
  (match m with
   | 1 => 0
   | 2 => 31
   | 3 => 59
   | 4 => 90
   | 5 => 120
   | 6 => 151
   | 7 => 181
   | 8 => 212
   | 9 => 243
   | 10 => 273
   | 11 => 304
   | 12 => 334
   | _ => 0) + (if 3 ≤ m && isLeap y then 1 else 0)

def PyDate.Valid (d : PyDate) : Prop :=
  1 ≤ d.year ∧ d.year ≤ 9999 ∧ 1 ≤ d.month ∧ d.month ≤ 12 ∧
    1 ≤ d.day ∧ d.day ≤ daysInMonth d.year d.month

instance (d : PyDate) : Decidable d.Valid := by
  unfold PyDate.Valid
  infer_instance

/-- `date.toordinal()`: day number in the proleptic Gregorian calendar.
Comparison of `date` objects and `date - timedelta(days=n)` are mirrored
by integer comparison and subtraction of ordinals. -/
def rataDie (d : PyDate) : Int :=
  let y := d.year - 1
  ((365 * y + y / 4 - y / 100 + y / 400
      + daysBeforeMonth d.year d.month + d.day : Nat) : Int)

def digitCh : Nat → Char
  | 0 => '0'
  | 1 => '1'
  | 2 => '2'
  | 3 => '3'
  | 4 => '4'
  | 5 => '5'
  | 6 => '6'
  | 7 => '7'
  | 8 => '8'
  | 9 => '9'
  | _ => '*'

def digitVal (c : Char) : Option Nat :=
  if isDigitCh c then some (c.toNat - ('0').toNat) else none

def pad2 (n : Nat) : Str :=
  [digitCh (n / 10 % 10), digitCh (n % 10)]

def pad4 (n : Nat) : Str :=
  [digitCh (n / 1000 % 10), digitCh (n / 100 % 10), digitCh (n / 10 % 10),
   digitCh (n % 10)]

/-- `date.isoformat()` — `YYYY-MM-DD`. -/
def PyDate.isoformat (d : PyDate) : Str :=
  pad4 d.year ++ '-' :: pad2 d.month ++ '-' :: pad2 d.day

/-- `date.fromisoformat` on the canonical `YYYY-MM-DD` form; anything else
raises `ValueError`. -/
def fromisoformat (s : Str) : Except PyErr PyDate :=
  match s with
  | [y1, y2, y3, y4, h1, m1, m2, h2, d1, d2] =>
    if h1 == '-' && h2 == '-' then
      match digitVal y1, digitVal y2, digitVal y3, digitVal y4,
          digitVal m1, digitVal m2, digitVal d1, digitVal d2 with
      | some a, some b, some c, some d, some e, some f, some g, some h =>
        let dt : PyDate :=
          { year := a * 1000 + b * 100 + c * 10 + d,
            month := e * 10 + f, day := g * 10 + h }
        if dt.Valid then .ok dt else .error .valueError
      | _, _, _, _, _, _, _, _ => .error .valueError
    else .error .valueError
  | _ => .error .valueError

/-- The in-memory `ProcessedCache._data` (a JSON object of strings). -/
abbrev Ledger := List (Str × Str)

/-- The outcome of reading the per-account cache file in
`ProcessedCache._load`. -/
inductive LoadResult where
  | missing
  | readError
  | jsonError
  | parsed (data : Ledger)

/-- `ProcessedCache._load`: missing file, `OSError` and
`json.JSONDecodeError` all degrade to an empty dict; whatever
`json.load` returns otherwise is kept as-is. -/
def cache_load : LoadResult → Ledger
  | .missing => []
  | .readError => []
  | .jsonError => []
  | .parsed d => d

/-- `ProcessedCache.is_processed`. -/
def is_processed (data : Ledger) (msg_hash : Str) : Bool :=
  (alookup data msg_hash).isSome

/-- `ProcessedCache.mark_processed` (records today's ISO date). -/
def mark_processed (data : Ledger) (msg_hash : Str) (today : PyDate) : Ledger :=
  aset data msg_hash today.isoformat

def purgeGo (cutoff : Int) : Ledger → Except PyErr Ledger
  | [] => .ok []
  | (k, v) :: t => do
    let d ← fromisoformat v
    let rest ← purgeGo cutoff t
    .ok (if rataDie d ≥ cutoff then (k, v) :: rest else rest)

/-- `ProcessedCache.purge_older_than`: keep entries with
`date.fromisoformat(v) >= date.today() - timedelta(days=days)`;
`fromisoformat` raises on a malformed value. -/
def purge_older_than (data : Ledger) (days : Int) (today : PyDate) :
    Except PyErr Ledger :=
  purgeGo (rataDie today - days) data

/-- One cache-API call (`save` persists the current dict; the write
itself is an external effect). -/
inductive CacheOp where
  | isProc (fp : Str)
  | mark (fp : Str) (today : PyDate)
  | purge (days : Int) (today : PyDate)
  | save

def run_cache_op (data : Ledger) : CacheOp → Except PyErr Ledger
  | .isProc _ => .ok data
  | .mark fp d => .ok (mark_processed data fp d)
  | .purge n d => purge_older_than data n d
  | .save => .ok data

def run_cache_ops : Ledger → List CacheOp → Except PyErr Ledger
  | data, [] => .ok data
  | data, op :: ops => do
    let d2 ← run_cache_op data op
    run_cache_ops d2 ops

def CacheOp.ValidDates : CacheOp → Prop
  | .mark _ d => d.Valid
  | .purge _ d => d.Valid
  | _ => True

instance (op : CacheOp) : Decidable op.ValidDates := by
  cases op <;> (unfold CacheOp.ValidDates; infer_instance)

/-- `pyGet d k` — Python `d[k]`, raising `KeyError` when absent. -/
def pyGet (d : PyDict) (k : Str) : Except PyErr PyVal :=
  match alookup d k with
  | some v => .ok v
  | none => .error (.keyError k)

/-- The flat record built by `main._build_record`. -/
structure Record where
  date : Str
  folder : Str
  error_code : Str
  error_cause : Str
  ai_responsible_party : PyVal
  ai_reason : PyVal
  from_addr : Str
  to_addr : Str
  subject : Str
  body_plain : Str
  body_html : Str
deriving DecidableEq

/-- `main._build_record`. -/
def build_record (bounce : BounceRecord) (classification : PyDict) :
    Except PyErr Record := do
  let party ← pyGet classification (("responsible").data)
  let reason ← pyGet classification (("reason").data)
  .ok { date := bounce.date, folder := bounce.folder,
        error_code := bounce.error_code, error_cause := bounce.error_message,
        ai_responsible_party := party, ai_reason := reason,
        from_addr := bounce.from_addr, to_addr := bounce.to_addr,
        subject := bounce.subject, body_plain := bounce.body_plain,
        body_html := bounce.body_html }

/-- Observable events of one account run (collaborator calls and the
cache flush). -/
inductive Ev where
  | evConnect
  | evConnectFail
  | evExtract (msg_hash : Str)
  | evClassify (bounce : BounceRecord)
  | evMark (msg_hash : Str)
  | evDisconnect
  | evSave
  | evWriteReports
deriving DecidableEq

/-- Mutable state of `main.process_account` inside the folder loop. -/
structure AccState where
  cache : Ledger
  target_records : List Record
  excluded_records : List Record
  processed_count : Nat
deriving DecidableEq

/-- The `for bounce in bounces` loop of `main.process_account`
(lines 68–77): classify, read `classification["is_user_caused"]` for the
label, build the record, bucket by the same key.  A raised exception
stops the loop with the state reached so far. -/
def classify_loop (oracle : BounceRecord → Option Str) (st : AccState) :
    List BounceRecord → List Ev × AccState × Option PyErr
  | [] => ([], st, none)
  | bounce :: rest =>
    let classification := classify_error (oracle bounce)
    match pyGet classification (("is_user_caused").data) with
    | .error e => ([Ev.evClassify bounce], st, some e)
    | .ok flag =>
      match build_record bounce classification with
      | .error e => ([Ev.evClassify bounce], st, some e)
      | .ok record =>
        let st2 :=
          if pyTruthy flag then
            { st with excluded_records := st.excluded_records ++ [record] }
          else
            { st with target_records := st.target_records ++ [record] }
        let res := classify_loop oracle st2 rest
        (Ev.evClassify bounce :: res.1, res.2)

/-- The per-message body of `main.process_account` (lines 58–80). -/
def process_message (ext : Ext) (oracle : BounceRecord → Option Str)
    (folder username : Str) (today : PyDate) (st : AccState) (m : Msg) :
    List Ev × AccState × Option PyErr :=
  let msg_hash := compute_message_hash ext m
  if is_processed st.cache msg_hash then ([], st, none)
  else
    let bounces := extract_bounces ext m folder username
    if bounces.isEmpty then
      ([Ev.evExtract msg_hash, Ev.evMark msg_hash],
       { st with cache := mark_processed st.cache msg_hash today }, none)
    else
      match classify_loop oracle st bounces with
      | (evs, st2, some e) => (Ev.evExtract msg_hash :: evs, st2, some e)
      | (evs, st2, none) =>
        (Ev.evExtract msg_hash :: evs ++ [Ev.evMark msg_hash],
         { st2 with cache := mark_processed st2.cache msg_hash today,
                    processed_count := st2.processed_count + 1 }, none)

def messages_loop (ext : Ext) (oracle : BounceRecord → Option Str)
    (folder username : Str) (today : PyDate) :
    AccState → List Msg → List Ev × AccState × Option PyErr
  | st, [] => ([], st, none)
  | st, m :: ms =>
    match process_message ext oracle folder username today st m with
    | (evs, st2, some e) => (evs, st2, some e)
    | (evs, st2, none) =>
      let res := messages_loop ext oracle folder username today st2 ms
      (evs ++ res.1, res.2)

/-- External collaborators of one account run: `ImapClient.connect`,
`ImapClient.fetch_messages`, and the raw Ollama response per classified
bounce (`none` = request exception). -/
structure AccountOracles where
  connect : Except PyErr Unit
  fetch : Str → Except PyErr (List Msg)
  classify : BounceRecord → Option Str

structure AccountConfig where
  check : List Str
  username : Str

def folders_loop (ext : Ext) (ora : AccountOracles) (username : Str)
    (today : PyDate) :
    AccState → List Str → List Ev × AccState × Option PyErr
  | st, [] => ([], st, none)
  | st, folder :: fs =>
    match ora.fetch folder with
    | .error e => ([], st, some e)
    | .ok msgs =>
      match messages_loop ext ora.classify folder username today st msgs with
      | (evs, st2, some e) => (evs, st2, some e)
      | (evs, st2, none) =>
        let res := folders_loop ext ora username today st2 fs
        (evs ++ res.1, res.2)

def bumpSummary : List (PyVal × Nat) → PyVal → List (PyVal × Nat)
  | [], party => [(party, 1)]
  | (k, v) :: t, party =>
    if k == party then (k, v + 1) :: t else (k, v) :: bumpSummary t party

/-- `main.process_account`, instrumented with an event trace.  Returns
(trace, uncaught exception, target summary, final in-memory ledger —
what `save()` writes when it is reached).  The `try/finally` around the
folder loop appends the disconnect and save events on both exits; a
connect failure is caught and returns an empty summary without reaching
them; `purge_older_than` runs before the `try` block, so an exception
there propagates with no flush at all. -/
def process_account (ext : Ext) (ora : AccountOracles) (cfg : AccountConfig)
    (days : Int) (today : PyDate) (loaded : LoadResult) :
    List Ev × Option PyErr × List (PyVal × Nat) × Ledger :=
  let cache0 := cache_load loaded
  match purge_older_than cache0 days today with
  | .error e => ([], some e, [], cache0)
  | .ok cache1 =>
    match ora.connect with
    | .error _ => ([Ev.evConnectFail], none, [], cache1)
    | .ok _ =>
      let st0 : AccState :=
        { cache := cache1, target_records := [], excluded_records := [],
          processed_count := 0 }
      match folders_loop ext ora cfg.username today st0 cfg.check with
      | (evs, st, some e) =>
        (Ev.evConnect :: evs ++ [Ev.evDisconnect, Ev.evSave], some e, [],
         st.cache)
      | (evs, st, none) =>
        let summary := st.target_records.foldl
          (fun acc r => bumpSummary acc r.ai_responsible_party) []
        (Ev.evConnect :: evs ++ [Ev.evDisconnect, Ev.evSave, Ev.evWriteReports],
         none, summary, st.cache)

/-- Identity stand-ins for the stdlib collaborators, used to evaluate the
pipeline on concrete inputs. -/
def extNoop : Ext :=
  { decodeHeader := id, parseAddr := id, sha256hex := id,
    localizeDate := fun _ => none }

/-- A concrete delivery-status payload (spec Scenario A). -/
def dsnExampleText : Str :=
  ("Reporting-MTA: dns;mx.example.com\n\nFinal-Recipient: rfc822;bob@example.com\nStatus: 5.1.1\nDiagnostic-Code: smtp; 550 5.1.1 User unknown\n").data

/-- A concrete bounce message carrying `dsnExampleText`. -/
def msgDsnExample : Msg :=
  .multi [((("Subject").data), (("Mail delivery failed").data))]
    (("multipart/report").data)
    (.cons (.leaf [] (("text/plain").data)
        (some (("The following message could not be delivered.\n").data)))
      (.cons (.leaf [] (("message/delivery-status").data) (some dsnExampleText))
        .nil))

/-- A plain message with no delivery-status part (its body even mentions a
5xx code, exercising the absence of a body-regex fallback). -/
def msgPlainExample : Msg :=
  .leaf [((("Subject").data), (("hello").data))] (("text/plain").data)
    (some (("server said 550 mailbox unavailable\n").data))

def dateExample : PyDate :=
  { year := 2026, month := 10, day := 12 }

def cfgInbox : AccountConfig :=
  { check := [("INBOX").data], username := ("me@example.com").data }

/-- Oracles for a run that connects, fetches one DSN bounce, and gets a
well-formed classification response. -/
def oraOneBounce : AccountOracles :=
  { connect := .ok (),
    fetch := fun _ => .ok [msgDsnExample],
    classify := fun _ => some (("CATEGORY: ip_block\nREASON: IP is on a blocklist").data) }

/-- Oracles for a run whose `connect()` raises. -/
def oraConnFail : AccountOracles :=
  { connect := .error .valueError,
    fetch := fun _ => .ok [],
    classify := fun _ => none }

/-- A DSN section whose diagnostic carries an internal whitespace run. -/
def secDoubleSpace : Str :=
  ("Status: 5.1.1\nDiagnostic-Code: smtp; 550 User  unknown").data

/-- A DSN section whose nonempty diagnostic does not start with `5\d\d`. -/
def secNoCode : Str :=
  ("Status: 5.2.2\nDiagnostic-Code: smtp; mailbox is full").data

/-- A ledger file content that is valid JSON but not a ledger (its value
is not an ISO date). -/
def ledgerBadDate : Ledger :=
  [((("a").data), (("xyz").data))]

/-- Well-formedness of an in-memory ledger: every stored value parses as
a date (what `mark_processed` maintains and `purge_older_than` needs). -/
def LedgerWF (data : Ledger) : Prop :=
  ∀ kv ∈ data, (fromisoformat kv.2).isOk = true

instance (data : Ledger) : Decidable (LedgerWF data) := by
  unfold LedgerWF
  infer_instance

/-- A concrete dated ledger. -/
def ledgerTwoDates : Ledger :=
  [((("h1").data), (("2026-10-01").data)),
   ((("h2").data), (("2026-09-01").data))]

/-- The filter `purge_older_than` keeps. -/
def purge_keep (cutoff : Int) (kv : Str × Str) : Bool :=
  match fromisoformat kv.2 with
  | .ok d => cutoff ≤ rataDie d
  | .error _ => false

/-- An account-loop state whose cache already holds `msgPlainExample`'s
fingerprint. -/
def stSeenPlain : AccState :=
  { cache := [(compute_message_hash extNoop msgPlainExample,
      (("2026-10-12").data))],
    target_records := [], excluded_records := [], processed_count := 0 }

end IEMA

namespace IEMA

theorem alookup_eq_none_of_keys {β : Type} (d : List (Str × β)) (key : Str)
    (h : ∀ k ∈ d.map Prod.fst, (k == key) = false) : alookup d key = none := by
  induction d with
  | nil => rfl
  | cons kv t ih =>
    obtain ⟨k, v⟩ := kv
    have hk : (k == key) = false := by
      refine h k ?_
      rw [List.map_cons]
      exact List.mem_cons_self _ _
    simp only [alookup, hk, Bool.false_eq_true, if_false]
    refine ih (fun k' hk' => h k' ?_)
    rw [List.map_cons]
    exact List.mem_cons_of_mem _ hk'

theorem parse_response_keys (raw : Str) :
    (parse_response raw).map Prod.fst =
      [("responsible").data, ("reason").data, ("is_excluded").data] := by
  simp only [parse_response, ollamaFallback]
  split <;> rfl

theorem classify_error_keys (resp : Option Str) :
    (classify_error resp).map Prod.fst =
      [("responsible").data, ("reason").data, ("is_excluded").data] := by
  cases resp with
  | none => rfl
  | some raw => exact parse_response_keys raw

/-- C1: the claim says `process_account` buckets each classified record
by the classification result's excluded flag.  In the code the
classification dict (per `classify_error`'s docstring and both of its
return paths) has exactly the keys `responsible`, `reason` and
`is_excluded`, while `main.process_account` line 70 reads
`classification["is_user_caused"]` — a `KeyError` for every possible
collaborator response.  Concretely, an account run over one DSN bounce
stops with `KeyError('is_user_caused')` after a single classification
call, having marked nothing and produced no records. -/
theorem c1_is_user_caused_key_missing :
    (∀ response : Option Str,
        alookup (classify_error response) (("is_user_caused").data) = none) ∧
    (process_account extNoop oraOneBounce cfgInbox 30 dateExample
        (.parsed [])).2.1 = some (.keyError (("is_user_caused").data)) ∧
    ((process_account extNoop oraOneBounce cfgInbox 30 dateExample
        (.parsed [])).1.countP (fun e =>
          match e with
          | .evClassify _ => true
          | _ => false) = 1 ∧
     (process_account extNoop oraOneBounce cfgInbox 30 dateExample
        (.parsed [])).1.countP (fun e =>
          match e with
          | .evMark _ => true
          | _ => false) = 0) := by
  refine ⟨?_, by decide, by decide, by decide⟩
  intro resp
  apply alookup_eq_none_of_keys
  rw [classify_error_keys]
  intro k hk
  simp only [List.mem_cons, List.not_mem_nil, or_false] at hk
  rcases hk with rfl | rfl | rfl <;> decide

theorem category_token_of_no_match {raw : Str} (h : find_category raw = none) :
    category_token raw = [] := by
  simp [category_token, h]

theorem parse_response_invalid {raw : Str}
    (h : VALID_CATEGORIES.contains (category_token raw) = false) :
    parse_response raw = ollamaFallback (reason_token raw) := by
  have hc : (!VALID_CATEGORIES.contains (category_token raw)) = true := by
    rw [h]; rfl
  simp only [parse_response, hc, if_true]

/-- C4: whenever the collaborator call fails, the response lacks a
`CATEGORY:` line, or the case-folded token is not in the registry, the
result is the reserved `unknown` category with `is_excluded = False` and
a nonempty diagnostic reason; `classify_error` is total, so no such
failure escapes the dispatch boundary. -/
theorem c4_classify_fallback_unknown :
    ∀ response : Option Str,
      (response = none ∨
        ∃ raw, response = some raw ∧
          (find_category raw = none ∨
            VALID_CATEGORIES.contains (category_token raw) = false)) →
      alookup (classify_error response) (("responsible").data) =
          some (.s (("unknown").data)) ∧
      alookup (classify_error response) (("is_excluded").data) =
          some (.b false) ∧
      ∃ r, alookup (classify_error response) (("reason").data) =
          some (.s r) ∧ r ≠ [] := by
  intro response h
  rcases h with rfl | ⟨raw, rfl, hcase⟩
  · exact ⟨rfl, rfl, (("Classification unavailable").data), rfl, by decide⟩
  · have hfalse : VALID_CATEGORIES.contains (category_token raw) = false := by
      rcases hcase with hnone | hfalse
      · rw [category_token_of_no_match hnone]; decide
      · exact hfalse
    have hp : classify_error (some raw) = ollamaFallback (reason_token raw) :=
      parse_response_invalid hfalse
    rw [hp]
    refine ⟨rfl, rfl, ?_⟩
    refine ⟨(if (reason_token raw).isEmpty then
      ("Classification unavailable").data else reason_token raw), rfl, ?_⟩
    cases hr : (reason_token raw).isEmpty with
    | true => simp
    | false => simp [hr]; simpa using hr

theorem extract_bounces_of_no_errors (ext : Ext) (m : Msg)
    (folder sender : Str) (h : extract_dsn_errors m = []) :
    extract_bounces ext m folder sender = [] := by
  simp only [extract_bounces, h, List.isEmpty_nil, if_true]

theorem dsn_text_of_eq_nil {m : Msg}
    (h : ∀ p ∈ msgWalk m, ¬ msgCT p = ("message/delivery-status").data) :
    dsn_text_of m = [] := by
  have hfind : (msgWalk m).find?
      (fun p => msgCT p == ("message/delivery-status").data) = none := by
    rw [List.find?_eq_none]
    intro p hp
    simpa using h p hp
  simp only [dsn_text_of, hfind]

theorem extract_dsn_errors_of_empty_text {m : Msg} (h : dsn_text_of m = []) :
    extract_dsn_errors m = [] := by
  simp only [extract_dsn_errors, h, List.isEmpty_nil, if_true]

theorem dsn_error_none_of_no_status {pm : AList} {sec : Str}
    (h : find_dsn_status sec = none) :
    dsn_error_of_section pm sec = none := by
  simp only [dsn_error_of_section, h]

theorem extract_dsn_errors_of_no_status {m : Msg}
    (h : ∀ sec ∈ splitSections (dsn_text_of m), find_dsn_status sec = none) :
    extract_dsn_errors m = [] := by
  unfold extract_dsn_errors
  cases he : (dsn_text_of m).isEmpty with
  | true => simp [he]
  | false =>
    simp only [he, Bool.false_eq_true, if_false]
    rw [List.filterMap_eq_nil_iff]
    intro sec hsec
    exact dsn_error_none_of_no_status (h sec hsec)

/-- C2: a message with no `message/delivery-status` part (whatever its
body text says — there is no body-regex fallback) extracts nothing, and
likewise when the delivery-status text has no section with a `5.D.D`
status. -/
theorem c2_no_dsn_part_extraction_empty :
    ∀ (ext : Ext) (m : Msg) (folder sender : Str),
      ((∀ p ∈ msgWalk m, ¬ msgCT p = ("message/delivery-status").data) ∨
        (∀ sec ∈ splitSections (dsn_text_of m), find_dsn_status sec = none)) →
      extract_bounces ext m folder sender = [] := by
  intro ext m folder sender h
  apply extract_bounces_of_no_errors
  rcases h with h | h
  · exact extract_dsn_errors_of_empty_text (dsn_text_of_eq_nil h)
  · exact extract_dsn_errors_of_no_status h

/-- C2 witness: a plain-text message whose body even mentions a 5xx code
yields no bounce records. -/
theorem c2_witness :
    extract_bounces extNoop msgPlainExample (("INBOX").data)
      (("me@example.com").data) = [] :=
  c2_no_dsn_part_extraction_empty extNoop msgPlainExample _ _
    (Or.inl (by decide))

theorem digitVal_digitCh (k : Nat) (h : k < 10) : digitVal (digitCh k) = some k := by
  interval_cases k <;> decide

theorem daysInMonth_le (y m : Nat) : daysInMonth y m ≤ 31 := by
  unfold daysInMonth
  split <;> try split <;> norm_num
  all_goals norm_num

theorem digits4 (y : Nat) (h : y ≤ 9999) :
    y / 1000 % 10 * 1000 + y / 100 % 10 * 100 + y / 10 % 10 * 10 + y % 10 = y := by
  omega

theorem digits2 (m : Nat) (h : m ≤ 99) : m / 10 % 10 * 10 + m % 10 = m := by
  omega

/-- `date.fromisoformat(date.isoformat(d)) = d` for every representable
date. -/
theorem fromisoformat_isoformat (d : PyDate) (h : d.Valid) :
    fromisoformat d.isoformat = Except.ok d := by
  obtain ⟨hy1, hy2, hm1, hm2, hd1, hd2⟩ := h
  have hdm : d.day ≤ 31 := le_trans hd2 (daysInMonth_le _ _)
  show fromisoformat (pad4 d.year ++ '-' :: pad2 d.month ++ '-' :: pad2 d.day) = _
  unfold pad4 pad2
  simp only [List.cons_append, List.nil_append]
  simp only [fromisoformat, digitVal_digitCh _ (Nat.mod_lt _ (by norm_num))]
  have hyear := digits4 d.year hy2
  have hmonth := digits2 d.month (by omega)
  have hday := digits2 d.day (by omega)
  simp only [hyear, hmonth, hday]
  have hvalid : PyDate.Valid { year := d.year, month := d.month, day := d.day } :=
    ⟨hy1, hy2, hm1, hm2, hd1, hd2⟩
  simp [hvalid]

theorem alookup_aset_self {β : Type} (d : List (Str × β)) (k : Str) (v : β) :
    alookup (aset d k v) k = some v := by
  induction d with
  | nil => simp [aset, alookup]
  | cons kv t ih =>
    obtain ⟨k', v'⟩ := kv
    cases hk : (k' == k) with
    | true => simp [aset, hk, alookup]
    | false => simp [aset, hk, alookup, ih]

theorem mem_aset {β : Type} (d : List (Str × β)) (k : Str) (v : β) :
    ∀ kv ∈ aset d k v, kv ∈ d ∨ kv.2 = v := by
  induction d with
  | nil =>
    intro kv hkv
    simp [aset] at hkv
    simp [hkv]
  | cons kv0 t ih =>
    obtain ⟨k', v'⟩ := kv0
    intro kv hkv
    cases hk : (k' == k) with
    | true =>
      rw [aset, if_pos hk] at hkv
      rcases List.mem_cons.mp hkv with rfl | hm
      · simp
      · exact Or.inl (List.mem_cons_of_mem _ hm)
    | false =>
      rw [aset, if_neg (by simp [hk])] at hkv
      rcases List.mem_cons.mp hkv with rfl | hm
      · exact Or.inl (List.mem_cons_self _ _)
      · rcases ih kv hm with hin | hv
        · exact Or.inl (List.mem_cons_of_mem _ hin)
        · exact Or.inr hv

theorem ledgerWF_aset {data : Ledger} (hwf : LedgerWF data) {k v : Str}
    (hv : (fromisoformat v).isOk = true) : LedgerWF (aset data k v) := by
  intro kv hkv
  rcases mem_aset data k v kv hkv with hin | h2
  · exact hwf kv hin
  · rw [h2]; exact hv

theorem ledgerWF_mark {data : Ledger} (hwf : LedgerWF data) {fp : Str}
    {today : PyDate} (htoday : today.Valid) :
    LedgerWF (mark_processed data fp today) :=
  ledgerWF_aset hwf (by rw [fromisoformat_isoformat today htoday]; rfl)

theorem purgeGo_eq_filter (cutoff : Int) :
    ∀ data : Ledger, LedgerWF data →
      purgeGo cutoff data = Except.ok (data.filter (purge_keep cutoff)) := by
  intro data
  induction data with
  | nil => intro; rfl
  | cons kv t ih =>
    obtain ⟨k, v⟩ := kv
    intro hwf
    have hok := hwf (k, v) (List.mem_cons_self _ _)
    have ht := ih (fun kv hkv => hwf kv (List.mem_cons_of_mem _ hkv))
    cases hfi : fromisoformat v with
    | error e => rw [hfi] at hok; simp [Except.isOk, Except.toBool] at hok
    | ok d =>
      show (do
        let dd ← fromisoformat v
        let rest ← purgeGo cutoff t
        Except.ok (if rataDie dd ≥ cutoff then (k, v) :: rest else rest)) = _
      rw [hfi, ht]
      show Except.ok (if rataDie d ≥ cutoff then
        (k, v) :: t.filter (purge_keep cutoff) else t.filter (purge_keep cutoff)) = _
      have hkeep : purge_keep cutoff (k, v) = decide (cutoff ≤ rataDie d) := by
        unfold purge_keep
        rw [hfi]
      by_cases hc : cutoff ≤ rataDie d
      · rw [if_pos hc, List.filter_cons, hkeep]
        simp [hc]
      · rw [if_neg hc, List.filter_cons, hkeep]
        simp [hc]

/-- C7: with all entries dated, `purge_older_than(N)` succeeds and keeps
exactly the entries whose stored date is on/after `today − N days`,
removing exactly those strictly before it; kept entries are unchanged
and stay in order (the result is a filter of the input). -/
theorem c7_purge_exact (data : Ledger) (days : Int) (today : PyDate)
    (hwf : LedgerWF data) :
    purge_older_than data days today =
      Except.ok (data.filter (purge_keep (rataDie today - days))) ∧
    ∀ k v, (k, v) ∈ data.filter (purge_keep (rataDie today - days)) ↔
      ((k, v) ∈ data ∧
        ∀ d, fromisoformat v = Except.ok d →
          ¬ rataDie d < rataDie today - days) := by
  constructor
  · exact purgeGo_eq_filter _ data hwf
  · intro k v
    rw [List.mem_filter]
    constructor
    · rintro ⟨hm, hk⟩
      refine ⟨hm, fun d hd => ?_⟩
      unfold purge_keep at hk
      rw [hd] at hk
      simp only [decide_eq_true_eq] at hk
      omega
    · rintro ⟨hm, hall⟩
      refine ⟨hm, ?_⟩
      have hok := hwf (k, v) hm
      cases hfi : fromisoformat v with
      | error e => rw [hfi] at hok; simp [Except.isOk, Except.toBool] at hok
      | ok d =>
        have := hall d hfi
        unfold purge_keep
        rw [hfi]
        simp only [decide_eq_true_eq]
        omega

/-- C7 witness: purging a two-entry ledger at a 30-day window keeps the
recent entry and drops the stale one. -/
theorem c7_witness :
    purge_older_than ledgerTwoDates 30 dateExample =
      Except.ok (ledgerTwoDates.filter (purge_keep (rataDie dateExample - 30))) ∧
    ((("h1").data), (("2026-10-01").data)) ∈
      ledgerTwoDates.filter (purge_keep (rataDie dateExample - 30)) ∧
    ¬ ((("h2").data), (("2026-09-01").data)) ∈
      ledgerTwoDates.filter (purge_keep (rataDie dateExample - 30)) := by
  have h := c7_purge_exact ledgerTwoDates 30 dateExample (by decide)
  exact ⟨h.1, by decide, by decide⟩

/-- C9 counterexample: a cache file holding the valid JSON object
`{"a": "xyz"}` is malformed as a ledger (its value is not an ISO date),
yet `_load` keeps it verbatim, and `purge_older_than` then raises
`ValueError` — so loading does not degrade to an empty ledger and the
operation sequence is fatal. -/
theorem c9_counterexample :
    cache_load (.parsed ledgerBadDate) = ledgerBadDate ∧
    ledgerBadDate ≠ [] ∧
    purge_older_than ledgerBadDate 30 dateExample =
      .error .valueError := by
  exact ⟨rfl, by decide, by decide⟩

theorem run_cache_ops_wf :
    ∀ (ops : List CacheOp) (data : Ledger), LedgerWF data →
      (∀ op ∈ ops, op.ValidDates) →
      ∃ final, run_cache_ops data ops = Except.ok final ∧ LedgerWF final := by
  intro ops
  induction ops with
  | nil => exact fun data hwf _ => ⟨data, rfl, hwf⟩
  | cons op t ih =>
    intro data hwf hv
    have hop := hv op (List.mem_cons_self _ _)
    have hstep : ∃ d2, run_cache_op data op = Except.ok d2 ∧ LedgerWF d2 := by
      cases op with
      | isProc fp => exact ⟨data, rfl, hwf⟩
      | mark fp d => exact ⟨_, rfl, ledgerWF_mark hwf hop⟩
      | purge n d =>
        refine ⟨_, purgeGo_eq_filter _ data hwf, fun kv hkv => ?_⟩
        exact hwf kv (List.mem_of_mem_filter hkv)
      | save => exact ⟨data, rfl, hwf⟩
    obtain ⟨d2, hd2, hwf2⟩ := hstep
    obtain ⟨final, hfin, hwff⟩ :=
      ih d2 hwf2 (fun o ho => hv o (List.mem_cons_of_mem _ ho))
    refine ⟨final, ?_, hwff⟩
    show (do
      let x ← run_cache_op data op
      run_cache_ops x t) = Except.ok final
    rw [hd2]
    exact hfin

/-- C9 amended: a missing, unreadable, or non-JSON ledger file degrades
to an empty ledger, and every sequence of cache operations (with real
calendar dates) starting from that empty ledger succeeds without
raising; but a file that parses as JSON with non-date values is kept
as-is and `purge_older_than` then raises (see the counterexample). -/
theorem c9_amended_load_degrades :
    cache_load .missing = [] ∧ cache_load .readError = [] ∧
    cache_load .jsonError = [] ∧
    ∀ ops : List CacheOp, (∀ op ∈ ops, op.ValidDates) →
      ∃ final, run_cache_ops (cache_load .missing) ops = Except.ok final := by
  refine ⟨rfl, rfl, rfl, fun ops hv => ?_⟩
  obtain ⟨final, hfin, _⟩ :=
    run_cache_ops_wf ops [] (fun kv hkv => absurd hkv (List.not_mem_nil _)) hv
  exact ⟨final, hfin⟩

/-- C9 witness: a mark/lookup/purge/save sequence on a ledger loaded from
a missing file succeeds. -/
theorem c9_witness :
    ∃ final, run_cache_ops (cache_load .missing)
      [CacheOp.mark (("h").data) dateExample, CacheOp.isProc (("h").data),
       CacheOp.purge 30 dateExample, CacheOp.save] = Except.ok final :=
  c9_amended_load_degrades.2.2.2 _ (by
    intro op hop
    rcases List.mem_cons.mp hop with rfl | hop
    · exact (by decide : PyDate.Valid dateExample)
    · rcases List.mem_cons.mp hop with rfl | hop
      · exact trivial
      · rcases List.mem_cons.mp hop with rfl | hop
        · exact (by decide : PyDate.Valid dateExample)
        · rcases List.mem_cons.mp hop with rfl | hop
          · exact trivial
          · exact absurd hop (List.not_mem_nil _))

theorem alookup_cons_pos {β : Type} (k key : Str) (v : β)
    (t : List (Str × β)) (h : (k == key) = true) :
    alookup ((k, v) :: t) key = some v := by
  simp only [alookup, h, if_true]

theorem alookup_cons_ne {β : Type} (k key : Str) (v : β)
    (t : List (Str × β)) (h : (k == key) = false) :
    alookup ((k, v) :: t) key = alookup t key := by
  simp only [alookup, h, Bool.false_eq_true, if_false]

theorem aset_cons_pos {β : Type} (k key : Str) (v val : β)
    (t : List (Str × β)) (h : (k == key) = true) :
    aset ((k, v) :: t) key val = (k, val) :: t := by
  simp only [aset, h, if_true]

theorem aset_cons_ne {β : Type} (k key : Str) (v val : β)
    (t : List (Str × β)) (h : (k == key) = false) :
    aset ((k, v) :: t) key val = (k, v) :: aset t key val := by
  simp only [aset, h, Bool.false_eq_true, if_false]

theorem keys_aset_subset (d : Ledger) (k v : Str) :
    ∀ k' ∈ (aset d k v).map Prod.fst, k' ∈ d.map Prod.fst ∨ k' = k := by
  induction d with
  | nil =>
    intro k' hk'
    have : (aset ([] : Ledger) k v) = [(k, v)] := rfl
    rw [this, List.map_cons] at hk'
    rcases List.mem_cons.mp hk' with rfl | hk2
    · exact Or.inr rfl
    · exact absurd hk2 (List.not_mem_nil _)
  | cons kv t ih =>
    obtain ⟨k1, v1⟩ := kv
    intro k' hk'
    cases hk : (k1 == k) with
    | true =>
      rw [aset_cons_pos _ _ _ _ _ hk, List.map_cons] at hk'
      rcases List.mem_cons.mp hk' with rfl | hm
      · exact Or.inl (by rw [List.map_cons]; exact List.mem_cons_self _ _)
      · exact Or.inl (by rw [List.map_cons]; exact List.mem_cons_of_mem _ hm)
    | false =>
      rw [aset_cons_ne _ _ _ _ _ hk, List.map_cons] at hk'
      rcases List.mem_cons.mp hk' with rfl | hm
      · exact Or.inl (by rw [List.map_cons]; exact List.mem_cons_self _ _)
      · rcases ih k' hm with hin | rfl
        · exact Or.inl (by rw [List.map_cons]; exact List.mem_cons_of_mem _ hin)
        · exact Or.inr rfl

theorem nodup_keys_aset (d : Ledger) (k v : Str)
    (h : (d.map Prod.fst).Nodup) : ((aset d k v).map Prod.fst).Nodup := by
  induction d with
  | nil =>
    have : (aset ([] : Ledger) k v) = [(k, v)] := rfl
    rw [this]
    exact List.nodup_singleton _
  | cons kv t ih =>
    obtain ⟨k1, v1⟩ := kv
    rw [List.map_cons, List.nodup_cons] at h
    cases hk : (k1 == k) with
    | true =>
      rw [aset_cons_pos _ _ _ _ _ hk, List.map_cons, List.nodup_cons]
      exact h
    | false =>
      rw [aset_cons_ne _ _ _ _ _ hk, List.map_cons, List.nodup_cons]
      refine ⟨fun hmem => ?_, ih h.2⟩
      rcases keys_aset_subset t k v k1 hmem with hin | rfl
      · exact h.1 hin
      · simp at hk

theorem alookup_filter_isSome {data : Ledger}
    (hnd : (data.map Prod.fst).Nodup) {k : Str} {v : Str}
    (hlk : alookup data k = some v) (q : Str × Str → Bool) :
    (alookup (data.filter q) k).isSome = q (k, v) := by
  induction data with
  | nil => exact absurd hlk (by rw [alookup]; exact Option.noConfusion)
  | cons kv t ih =>
    obtain ⟨k1, v1⟩ := kv
    rw [List.map_cons, List.nodup_cons] at hnd
    rw [List.filter_cons]
    cases hk : (k1 == k) with
    | true =>
      rw [alookup_cons_pos _ _ _ _ hk] at hlk
      have hv : v1 = v := by injection hlk
      subst hv
      have hk1 : k1 = k := by simpa using hk
      subst hk1
      cases hq : q (k1, v1) with
      | true =>
        rw [if_pos rfl, alookup_cons_pos _ _ _ _ hk]
        rfl
      | false =>
        rw [if_neg Bool.false_ne_true]
        have hnone : alookup (t.filter q) k1 = none := by
          apply alookup_eq_none_of_keys
          intro k' hk'
          obtain ⟨kv', hkv', hfst⟩ := List.mem_map.mp hk'
          have hk'm : k' ∈ t.map Prod.fst :=
            hfst ▸ List.mem_map_of_mem Prod.fst (List.mem_of_mem_filter hkv')
          cases hbe : (k' == k1) with
          | true =>
            exfalso
            have hk'e : k' = k1 := by simpa using hbe
            subst hk'e
            exact hnd.1 hk'm
          | false => rfl
        rw [hnone]
        rfl
    | false =>
      rw [alookup_cons_ne _ _ _ _ hk] at hlk
      cases hq : q (k1, v1) with
      | true =>
        rw [if_pos rfl, alookup_cons_ne _ _ _ _ hk]
        exact ih hnd.2 hlk
      | false =>
        rw [if_neg Bool.false_ne_true]
        exact ih hnd.2 hlk

/-- C3: once `mark_processed(fp)` runs, `is_processed(fp)` is true; it
stays true across `purge_older_than` exactly while the stored date is on
or after the cutoff (expiry purges it); and the orchestrator's
per-message step returns immediately — no extraction event, no
classification event, state unchanged — whenever the fingerprint is
already processed. -/
theorem c3_idempotent_until_expiry :
    ∀ (data : Ledger) (fp : Str) (today : PyDate),
      is_processed (mark_processed data fp today) fp = true ∧
      (∀ (days : Int) (today2 : PyDate), today.Valid → LedgerWF data →
        (data.map Prod.fst).Nodup →
        ∃ data', purge_older_than (mark_processed data fp today) days today2 =
            Except.ok data' ∧
          (is_processed data' fp = true ↔
            rataDie today2 - days ≤ rataDie today)) ∧
      (∀ (ext : Ext) (oracle : BounceRecord → Option Str)
          (folder username : Str) (tod : PyDate) (st : AccState) (m : Msg),
        is_processed st.cache (compute_message_hash ext m) = true →
        process_message ext oracle folder username tod st m = ([], st, none)) := by
  intro data fp today
  refine ⟨?_, ?_, ?_⟩
  · rw [is_processed, mark_processed, alookup_aset_self]
    rfl
  · intro days today2 htv hwf hnd
    have hwfm : LedgerWF (mark_processed data fp today) := ledgerWF_mark hwf htv
    refine ⟨_, purgeGo_eq_filter _ _ hwfm, ?_⟩
    have hndm : ((mark_processed data fp today).map Prod.fst).Nodup :=
      nodup_keys_aset _ _ _ hnd
    have hlk : alookup (mark_processed data fp today) fp =
        some today.isoformat := alookup_aset_self _ _ _
    rw [is_processed, alookup_filter_isSome hndm hlk]
    unfold purge_keep
    rw [fromisoformat_isoformat today htv]
    simp only [decide_eq_true_eq]
  · intro ext oracle folder username tod st m h
    simp only [process_message, h, if_true]

/-- C3 witness: a marked fingerprint reads processed, survives a purge
inside the window, and the per-message step skips a message whose
fingerprint is already in the cache. -/
theorem c3_witness :
    is_processed (mark_processed [] (("h").data) dateExample)
      (("h").data) = true ∧
    (∃ data', purge_older_than (mark_processed [] (("h").data) dateExample)
        30 dateExample = Except.ok data' ∧
      (is_processed data' (("h").data) = true ↔
        rataDie dateExample - 30 ≤ rataDie dateExample)) ∧
    process_message extNoop (fun _ => none) (("INBOX").data) (("u").data)
      dateExample stSeenPlain msgPlainExample = ([], stSeenPlain, none) := by
  obtain ⟨h1, h2, h3⟩ := c3_idempotent_until_expiry [] (("h").data) dateExample
  exact ⟨h1, h2 30 dateExample (by decide) (by decide) (by decide),
    h3 extNoop (fun _ => none) _ _ dateExample stSeenPlain msgPlainExample
      (by decide)⟩

/-- C8 counterexample: when `connect()` fails the account is skipped but
the ledger is NOT flushed — the run's trace is just the connect failure,
with no save event, refuting "the ledger save() step is reached on every
exit path". -/
theorem c8_counterexample :
    (process_account extNoop oraConnFail cfgInbox 30 dateExample
        (.parsed [])).1 = [Ev.evConnectFail] ∧
    Ev.evSave ∉ (process_account extNoop oraConnFail cfgInbox 30 dateExample
        (.parsed [])).1 := by
  exact ⟨by decide, by decide⟩

/-- C8 amended: once `connect()` succeeds, the `try/finally` reaches the
disconnect and save steps on every exit path — normal completion and any
mid-run failure alike; when `connect()` fails the account is skipped
without flushing the ledger. -/
theorem c8_amended_save_on_connected_paths :
    ∀ (ext : Ext) (ora : AccountOracles) (cfg : AccountConfig) (days : Int)
      (today : PyDate) (loaded : LoadResult) (c1 : Ledger),
      purge_older_than (cache_load loaded) days today = Except.ok c1 →
      ((ora.connect = Except.ok () →
          Ev.evSave ∈ (process_account ext ora cfg days today loaded).1 ∧
          Ev.evDisconnect ∈ (process_account ext ora cfg days today loaded).1) ∧
       (∀ e, ora.connect = Except.error e →
          Ev.evSave ∉ (process_account ext ora cfg days today loaded).1)) := by
  intro ext ora cfg days today loaded c1 hpurge
  simp only [process_account]
  rw [hpurge]
  constructor
  · intro hconn
    rw [hconn]
    dsimp only
    rcases hfl : folders_loop ext ora cfg.username today
        { cache := c1, target_records := [], excluded_records := [],
          processed_count := 0 } cfg.check with ⟨evs, st, err⟩
    cases err with
    | some e => constructor <;> simp
    | none => constructor <;> simp
  · intro e hconn
    rw [hconn]
    show Ev.evSave ∉ [Ev.evConnectFail]
    decide

/-- C8 witness: a connected run reaches both disconnect and save. -/
theorem c8_witness :
    Ev.evSave ∈ (process_account extNoop oraOneBounce cfgInbox 30 dateExample
        (.parsed [])).1 ∧
    Ev.evDisconnect ∈ (process_account extNoop oraOneBounce cfgInbox 30
        dateExample (.parsed [])).1 :=
  (c8_amended_save_on_connected_paths extNoop oraOneBounce cfgInbox 30
      dateExample (.parsed []) [] (by decide)).1 rfl

/-- C5 counterexample: for the diagnostic `550 User  unknown` the code
stores `User unknown` (whitespace runs collapsed) as error_message, not
the trailing text `User  unknown` (nor ` User  unknown`) that the claim
describes. -/
theorem c5_counterexample :
    (dsn_error_of_section [] secDoubleSpace).map
        (fun e => (e.error_code, e.error_message)) =
      some ((("550").data), (("User unknown").data)) ∧
    ¬ (("User unknown").data = ("User  unknown").data) ∧
    ¬ (("User unknown").data = (" User  unknown").data) := by
  exact ⟨by decide, by decide, by decide⟩

/-- C6 counterexample: a qualifying section whose nonempty diagnostic
does not match `^5\d{2}[\s-]+` gets the dotted status as error_code but
keeps the diagnostic text as error_message — not the synthesized
`DSN status 5.2.2` the claim predicts. -/
theorem c6_counterexample :
    (dsn_error_of_section [] secNoCode).map
        (fun e => (e.error_code, e.error_message)) =
      some ((("5.2.2").data), (("mailbox is full").data)) ∧
    ¬ (("mailbox is full").data = ("DSN status 5.2.2").data) := by
  exact ⟨by decide, by decide⟩

theorem twAppendAll {p : Char → Bool} :
    ∀ (u v : Str), (∀ c ∈ u, p c = true) →
      (u ++ v).takeWhile p = u ++ v.takeWhile p := by
  intro u
  induction u with
  | nil => intro v _; rfl
  | cons c t ih =>
    intro v h
    have hc := h c (List.mem_cons_self _ _)
    rw [List.cons_append, List.takeWhile_cons, hc, if_pos rfl,
      ih v (fun c' hc' => h c' (List.mem_cons_of_mem _ hc')), List.cons_append]

theorem dwAppendAll {p : Char → Bool} :
    ∀ (u v : Str), (∀ c ∈ u, p c = true) →
      (u ++ v).dropWhile p = v.dropWhile p := by
  intro u
  induction u with
  | nil => intro v _; rfl
  | cons c t ih =>
    intro v h
    have hc := h c (List.mem_cons_self _ _)
    rw [List.cons_append, List.dropWhile_cons, hc, if_pos rfl,
      ih v (fun c' hc' => h c' (List.mem_cons_of_mem _ hc'))]

theorem takeWhile_head_false {p : Char → Bool} {v : Str}
    (h : ∀ c ∈ v.take 1, p c = false) : v.takeWhile p = [] := by
  cases v with
  | nil => rfl
  | cons c t =>
    have hc := h c (by rw [List.take_cons (by norm_num)]; exact List.mem_cons_self _ _)
    rw [List.takeWhile_cons, hc]
    rfl

theorem dropWhile_head_false {p : Char → Bool} {v : Str}
    (h : ∀ c ∈ v.take 1, p c = false) : v.dropWhile p = v := by
  cases v with
  | nil => rfl
  | cons c t =>
    have hc := h c (by rw [List.take_cons (by norm_num)]; exact List.mem_cons_self _ _)
    rw [List.dropWhile_cons, hc]
    rfl

/-- Greediness of `re.match(r"(5\d{2})[\s\-]+(.*)", d, re.DOTALL)`: on a
diagnostic decomposed as digits, a nonempty separator run, and a
remainder not starting with a separator character, the groups are the
digits and exactly that remainder. -/
theorem matchErrCode_decomp (c1 c2 : Char) (sep rest : Str)
    (hc1 : isDigitCh c1 = true) (hc2 : isDigitCh c2 = true)
    (hsep : sep ≠ []) (hsepAll : ∀ c ∈ sep, wsDashChar c = true)
    (hrest : ∀ c ∈ rest.take 1, wsDashChar c = false) :
    matchErrCode ('5' :: c1 :: c2 :: (sep ++ rest)) =
      some (['5', c1, c2], rest) := by
  simp only [matchErrCode, hc1, hc2, Bool.and_self, if_true]
  rw [twAppendAll sep rest hsepAll, dwAppendAll sep rest hsepAll,
    takeWhile_head_false hrest, dropWhile_head_false hrest, List.append_nil]
  have : sep.isEmpty = false := by
    cases sep with
    | nil => exact absurd rfl hsep
    | cons c t => rfl
  rw [this]
  rfl

theorem collapseRunsBy_cons_neg {p : Char → Bool} {c : Char} (n : Nat)
    (repl : Str) (t : Str) (hc : p c = false) (hn : 0 < n) :
    collapseRunsBy p n repl (c :: t) = c :: collapseRunsBy p n repl t := by
  show crbGo p n repl (c :: t) [] = _
  rw [crbGo, hc]
  simp only [Bool.false_eq_true, if_false]
  rw [flushRun, if_neg (by simp; omega)]
  rfl

theorem pyStrip_cons_ne_nil {c : Char} {t : Str} (hc : pyWsChar c = false) :
    pyStrip (c :: t) ≠ [] := by
  unfold pyStrip lstripWs
  rw [List.dropWhile_cons, hc]
  simp only [Bool.false_eq_true, if_false]
  rw [rstripWs]
  cases rstripWs t with
  | nil => rw [hc]; simp
  | cons a b => simp

theorem wsDash_false_pyWs_false {c : Char} (h : wsDashChar c = false) :
    pyWsChar c = false := by
  unfold wsDashChar at h
  cases hp : pyWsChar c with
  | false => rfl
  | true => rw [hp] at h; simp at h

theorem squash_strip_ne_nil (rest : Str) (hne : rest ≠ [])
    (hhead : ∀ c ∈ rest.take 1, wsDashChar c = false) :
    pyStrip (squashWs rest) ≠ [] := by
  cases rest with
  | nil => exact absurd rfl hne
  | cons c t =>
    have hcw : wsDashChar c = false :=
      hhead c (by rw [List.take_cons (by norm_num)]; exact List.mem_cons_self _ _)
    have hcp : pyWsChar c = false := wsDash_false_pyWs_false hcw
    unfold squashWs
    rw [collapseRunsBy_cons_neg 1 [' '] t hcp (by norm_num)]
    exact pyStrip_cons_ne_nil hcp

/-- C5 amended: for a qualifying DSN section whose diagnostic matches
`^5\d{2}[\s-]+(.*)`, error_code equals those three digits and
error_message is the trailing capture with each whitespace run collapsed
to a single space and the result trimmed — except that when this
collapsed, trimmed capture is empty (e.g. diagnostic `550-`), the
synthesized `DSN status ` + status_code string is stored instead. -/
theorem c5_amended_code_and_message :
    ∀ (pm : AList) (sec st : Str) (c1 c2 : Char) (sep rest : Str),
      find_dsn_status sec = some st →
      dsn_diagnostic_of sec = '5' :: c1 :: c2 :: (sep ++ rest) →
      isDigitCh c1 = true → isDigitCh c2 = true →
      sep ≠ [] → (∀ c ∈ sep, wsDashChar c = true) →
      (∀ c ∈ rest.take 1, wsDashChar c = false) →
      ∃ e, dsn_error_of_section pm sec = some e ∧
        e.error_code = ['5', c1, c2] ∧
        e.error_message =
          (if (pyStrip (squashWs rest)).isEmpty then
            ("DSN status ").data ++ st
          else pyStrip (squashWs rest)) := by
  intro pm sec st c1 c2 sep rest hst hdiag hc1 hc2 hsep hsepAll hrest
  simp only [dsn_error_of_section, hst, hdiag]
  rw [matchErrCode_decomp c1 c2 sep rest hc1 hc2 hsep hsepAll hrest]
  simp only [List.isEmpty_cons, Bool.false_eq_true, if_false]
  refine ⟨_, rfl, ?_, ?_⟩
  · simp only [List.isEmpty_cons, Bool.false_eq_true, if_false]
  · rfl

/-- C5 witness: on Scenario A's section the code is `550` and the
message is the (already well-spaced, nonempty) trailing text; on a
`550-` diagnostic whose capture is empty the synthesized
`DSN status 5.1.1` is stored. -/
theorem c5_witness :
    (∃ e, dsn_error_of_section []
        (("Status: 5.1.1\nDiagnostic-Code: smtp; 550 5.1.1 User unknown").data) =
          some e ∧
      e.error_code = ['5', '5', '0'] ∧
      e.error_message =
        (if (pyStrip (squashWs (("5.1.1 User unknown").data))).isEmpty then
          ("DSN status ").data ++ ("5.1.1").data
        else pyStrip (squashWs (("5.1.1 User unknown").data)))) ∧
    (∃ e, dsn_error_of_section []
        (("Status: 5.1.1\nDiagnostic-Code: smtp; 550-").data) = some e ∧
      e.error_code = ['5', '5', '0'] ∧
      e.error_message =
        (if (pyStrip (squashWs ([] : Str))).isEmpty then
          ("DSN status ").data ++ ("5.1.1").data
        else pyStrip (squashWs ([] : Str)))) :=
  ⟨c5_amended_code_and_message []
    (("Status: 5.1.1\nDiagnostic-Code: smtp; 550 5.1.1 User unknown").data)
    (("5.1.1").data) '5' '0' ([' ']) (("5.1.1 User unknown").data)
    (by decide) (by decide) (by decide) (by decide) (by decide) (by decide)
    (by decide),
   c5_amended_code_and_message []
    (("Status: 5.1.1\nDiagnostic-Code: smtp; 550-").data)
    (("5.1.1").data) '5' '0' (['-']) ([])
    (by decide) (by decide) (by decide) (by decide) (by decide) (by decide)
    (by decide)⟩

/-- C6 amended: for a qualifying DSN section whose diagnostic does not
match `^5\d{2}[\s-]+(.*)`, error_code falls back to the dotted status
code; error_message is the synthesized `DSN status <code>` string only
when the diagnostic is absent or empty — a nonempty non-matching
diagnostic is kept as error_message verbatim. -/
theorem c6_amended_fallback :
    ∀ (pm : AList) (sec st : Str),
      find_dsn_status sec = some st →
      matchErrCode (dsn_diagnostic_of sec) = none →
      ∃ e, dsn_error_of_section pm sec = some e ∧
        e.error_code = st ∧
        e.error_message = (if dsn_diagnostic_of sec = [] then
          ("DSN status ").data ++ st else dsn_diagnostic_of sec) := by
  intro pm sec st hst hmatch
  simp only [dsn_error_of_section, hst]
  cases hd : dsn_diagnostic_of sec with
  | nil =>
    refine ⟨_, rfl, ?_, ?_⟩ <;> simp [hd]
  | cons c t =>
    rw [hd] at hmatch
    refine ⟨_, rfl, ?_, ?_⟩ <;> simp [hd, hmatch]

/-- C6 witness: on a section with status `5.2.2` and diagnostic
`mailbox is full`, the entry is (`5.2.2`, `mailbox is full`). -/
theorem c6_witness :
    ∃ e, dsn_error_of_section [] secNoCode = some e ∧
      e.error_code = (("5.2.2").data) ∧
      e.error_message = (if dsn_diagnostic_of secNoCode = [] then
        ("DSN status ").data ++ (("5.2.2").data) else dsn_diagnostic_of secNoCode) :=
  c6_amended_fallback [] secNoCode (("5.2.2").data) (by decide) (by decide)

/-- C10 counterexample: the line containing the single carriage return in
`a\n\r\nb` is whitespace-only but survives normalization unchanged, so
"whitespace-only lines become empty lines" fails as stated (the blank-line
regex only matches `[ \t]+` and the lone `\r` is too short a run for the
horizontal-whitespace collapse). -/
theorem c10_counterexample :
    normalize_whitespace (("a\n\r\nb").data) = ("a\n\r\nb").data ∧
    ("\r").data.all pyWsChar = true ∧
    ¬ (("a\n\r\nb").data = ("a\n\nb").data) := by
  exact ⟨by decide, by decide, by decide⟩

theorem crbGo_append_run {p : Char → Bool} (n : Nat) (repl : Str) :
    ∀ (u v run : Str), (∀ c ∈ u, p c = true) →
      crbGo p n repl (u ++ v) run = crbGo p n repl v (u.reverse ++ run) := by
  intro u
  induction u with
  | nil => intro v run _; rfl
  | cons c t ih =>
    intro v run h
    have hc := h c (List.mem_cons_self _ _)
    rw [List.cons_append, crbGo, hc]
    simp only [if_true]
    rw [ih v (c :: run) (fun c' hc' => h c' (List.mem_cons_of_mem _ hc')),
      List.reverse_cons, List.append_assoc, List.singleton_append]

theorem crbGo_flush {p : Char → Bool} (n : Nat) (repl : Str) (hn : 0 < n) :
    ∀ (v acc : Str),
      (v = [] ∨ ∃ c' t', v = c' :: t' ∧ p c' = false) →
      crbGo p n repl v acc = flushRun n repl acc ++ collapseRunsBy p n repl v := by
  intro v acc hv
  have hnil : flushRun n repl [] = [] := by
    rw [flushRun, if_neg (by simp; omega)]
    rfl
  rcases hv with rfl | ⟨c', t', rfl, hc'⟩
  · show flushRun n repl acc = flushRun n repl acc ++ crbGo p n repl [] []
    rw [crbGo, hnil, List.append_nil]
  · rw [crbGo, hc']
    simp only [Bool.false_eq_true, if_false]
    show _ = flushRun n repl acc ++ crbGo p n repl (c' :: t') []
    rw [crbGo, hc']
    simp only [Bool.false_eq_true, if_false]
    rw [hnil, List.nil_append]

theorem dropWhile_nil_or_head_false {p : Char → Bool} :
    ∀ t : Str, t.dropWhile p = [] ∨
      ∃ c' t', t.dropWhile p = c' :: t' ∧ p c' = false := by
  intro t
  induction t with
  | nil => exact Or.inl rfl
  | cons c t ih =>
    rw [List.dropWhile_cons]
    cases hc : p c with
    | true => simpa using ih
    | false => exact Or.inr ⟨c, t, by simp, hc⟩

/-- The run-step equation of `collapseRunsBy`: a maximal leading run is
flushed as a whole. -/
theorem collapseRunsBy_run {p : Char → Bool} {c : Char} (n : Nat)
    (repl t : Str) (hc : p c = true) (hn : 0 < n) :
    collapseRunsBy p n repl (c :: t) =
      (if n ≤ (c :: t.takeWhile p).length then repl else c :: t.takeWhile p)
        ++ collapseRunsBy p n repl (t.dropWhile p) := by
  show crbGo p n repl (c :: t) [] = _
  have hsplit : c :: t = (c :: t.takeWhile p) ++ t.dropWhile p := by
    rw [List.cons_append, List.takeWhile_append_dropWhile]
  conv_lhs => rw [hsplit]
  rw [crbGo_append_run n repl (c :: t.takeWhile p) (t.dropWhile p) []
    (by
      intro x hx
      rcases List.mem_cons.mp hx with rfl | hm
      · exact hc
      · exact List.mem_takeWhile_imp hm),
    crbGo_flush n repl hn _ _ (dropWhile_nil_or_head_false t)]
  congr 1
  rw [flushRun, List.append_nil, List.length_reverse, List.reverse_reverse]

/-- `collapseRunsBy` leaves a block of non-`p` characters untouched. -/
theorem collapseRunsBy_skip {p : Char → Bool} (n : Nat) (repl : Str)
    (hn : 0 < n) :
    ∀ (u rest : Str), (∀ c ∈ u, p c = false) →
      collapseRunsBy p n repl (u ++ rest) =
        u ++ collapseRunsBy p n repl rest := by
  intro u
  induction u with
  | nil => intro rest _; rfl
  | cons c t ih =>
    intro rest h
    rw [List.cons_append,
      collapseRunsBy_cons_neg n repl _ (h c (List.mem_cons_self _ _)) hn,
      ih rest (fun c' hc' => h c' (List.mem_cons_of_mem _ hc')),
      List.cons_append]

/-- The head of a collapsed string is not freshly `p` unless the input
started with a `p`-run; concretely: collapse of a string that is empty or
starts with a non-`p` char is empty or starts with that non-`p` char, and
collapse of a `p`-headed string starts with `repl`/run characters. -/
theorem collapseRunsBy_head {p : Char → Bool} (n : Nat) (repl : Str)
    (hn : 0 < n) (v : Str)
    (hv : v = [] ∨ ∃ c' t', v = c' :: t' ∧ p c' = false) :
    collapseRunsBy p n repl v = [] ∨
      ∃ c' t', collapseRunsBy p n repl v = c' :: t' ∧ p c' = false := by
  rcases hv with rfl | ⟨c', t', rfl, hc'⟩
  · left
    show crbGo p n repl [] [] = []
    rw [crbGo, flushRun, if_neg (by simp; omega)]
    rfl
  · right
    exact ⟨c', collapseRunsBy p n repl t',
      collapseRunsBy_cons_neg n repl _ hc' hn, hc'⟩

theorem isEmpty_append_cons (u : Str) (c : Char) (v : Str) :
    (u ++ c :: v).isEmpty = false := by
  cases u <;> rfl

theorem takeWhile_all {p : Char → Bool} :
    ∀ t : Str, (∀ x ∈ t, p x = true) → t.takeWhile p = t := by
  intro t
  induction t with
  | nil => intro; rfl
  | cons c r ih =>
    intro h
    rw [List.takeWhile_cons, h c (List.mem_cons_self _ _), if_pos rfl,
      ih (fun x hx => h x (List.mem_cons_of_mem _ hx))]

theorem dropWhile_all {p : Char → Bool} :
    ∀ t : Str, (∀ x ∈ t, p x = true) → t.dropWhile p = [] := by
  intro t
  induction t with
  | nil => intro; rfl
  | cons c r ih =>
    intro h
    rw [List.dropWhile_cons, h c (List.mem_cons_self _ _), if_pos rfl,
      ih (fun x hx => h x (List.mem_cons_of_mem _ hx))]

theorem neLinesGo_eq : ∀ (t acc : Str),
    neLinesGo t acc =
      (if (acc.reverse ++ t.takeWhile (fun a => !(a == '\n'))).isEmpty then []
       else [acc.reverse ++ t.takeWhile (fun a => !(a == '\n'))]) ++
        neLines ((t.dropWhile (fun a => !(a == '\n'))).tail) := by
  intro t
  induction t with
  | nil =>
    intro acc
    show (if acc.isEmpty then [] else [acc.reverse]) = _
    rw [List.takeWhile_nil, List.append_nil, List.dropWhile_nil]
    show _ = (if acc.reverse.isEmpty then [] else [acc.reverse]) ++ neLines []
    cases acc with
    | nil => rfl
    | cons a b =>
      have h1 : ((a :: b) : Str).isEmpty = false := rfl
      have h2 : (((a :: b) : Str).reverse).isEmpty = false := by
        rw [List.reverse_cons]
        exact isEmpty_append_cons _ _ _
      rw [h1, h2]
      rfl
  | cons c t' ih =>
    intro acc
    cases hc : (c == '\n') with
    | true =>
      have hceq : c = '\n' := by simpa using hc
      subst hceq
      show (if acc.isEmpty then neLinesGo t' [] else acc.reverse :: neLinesGo t' []) = _
      have htw : (('\n' :: t') : Str).takeWhile (fun a => !(a == '\n')) = [] :=
        List.takeWhile_cons_of_neg (by decide)
      have hdw : (('\n' :: t') : Str).dropWhile (fun a => !(a == '\n')) =
          '\n' :: t' :=
        List.dropWhile_cons_of_neg (by decide)
      rw [htw, List.append_nil, hdw, List.tail_cons]
      cases acc with
      | nil => rfl
      | cons a b =>
        have h1 : ((a :: b) : Str).isEmpty = false := rfl
        have h2 : (((a :: b) : Str).reverse).isEmpty = false := by
          rw [List.reverse_cons]
          exact isEmpty_append_cons _ _ _
        rw [h1, h2]
        rfl
    | false =>
      show neLinesGo (c :: t') acc = _
      have hstep : neLinesGo (c :: t') acc = neLinesGo t' (c :: acc) := by
        rw [neLinesGo, hc]
        simp only [Bool.false_eq_true, if_false]
      rw [hstep, ih (c :: acc)]
      have htw : ((c :: t') : Str).takeWhile (fun a => !(a == '\n')) =
          c :: t'.takeWhile (fun a => !(a == '\n')) := by
        rw [List.takeWhile_cons, hc]
        rfl
      have hdw : ((c :: t') : Str).dropWhile (fun a => !(a == '\n')) =
          t'.dropWhile (fun a => !(a == '\n')) := by
        rw [List.dropWhile_cons, hc]
        rfl
      rw [htw, hdw, List.reverse_cons, List.append_assoc, List.singleton_append]

theorem neLines_cons_nl (t : Str) : neLines ('\n' :: t) = neLines t := rfl

theorem neLines_cons {c : Char} (t : Str) (hc : (c == '\n') = false) :
    neLines (c :: t) =
      (c :: t.takeWhile (fun a => !(a == '\n'))) ::
        neLines ((t.dropWhile (fun a => !(a == '\n'))).tail) := by
  show neLinesGo (c :: t) [] = _
  have hstep : neLinesGo (c :: t) [] = neLinesGo t [c] := by
    rw [neLinesGo, hc]
    simp only [Bool.false_eq_true, if_false]
  rw [hstep, neLinesGo_eq t [c]]
  show (if ((c :: t.takeWhile _) : Str).isEmpty then [] else _) ++ _ = _
  rw [show ((c :: t.takeWhile (fun a => !(a == '\n'))) : Str).isEmpty = false from rfl]
  rfl

theorem neLines_nl_run : ∀ (a y : Str), (∀ x ∈ a, x = '\n') →
    neLines (a ++ y) = neLines y := by
  intro a
  induction a with
  | nil => intro y _; rfl
  | cons c t ih =>
    intro y h
    have hc : c = '\n' := h c (List.mem_cons_self _ _)
    subst hc
    rw [List.cons_append, neLines_cons_nl]
    exact ih y (fun x hx => h x (List.mem_cons_of_mem _ hx))

theorem neLines_append_nl : ∀ (fuel : Nat) (u z : Str), u.length ≤ fuel →
    neLines (u ++ '\n' :: z) = neLines u ++ neLines z := by
  intro fuel
  induction fuel with
  | zero =>
    intro u z hu
    cases u with
    | nil =>
      rw [List.nil_append, neLines_cons_nl]
      rfl
    | cons a b => simp at hu
  | succ fuel ih =>
    intro u z hu
    cases u with
    | nil =>
      rw [List.nil_append, neLines_cons_nl]
      rfl
    | cons c u' =>
      cases hc : (c == '\n') with
      | true =>
        have hceq : c = '\n' := by simpa using hc
        subst hceq
        rw [List.cons_append, neLines_cons_nl, neLines_cons_nl]
        exact ih u' z (Nat.le_of_succ_le_succ hu)
      | false =>
        rw [List.cons_append, neLines_cons _ hc, neLines_cons _ hc]
        rcases hdw : u'.dropWhile (fun a => !(a == '\n')) with _ | ⟨d, w⟩
        · have hu'tw : u' = u'.takeWhile (fun a => !(a == '\n')) := by
            conv_lhs => rw [← List.takeWhile_append_dropWhile
              (fun a => !(a == '\n')) u']
            rw [hdw, List.append_nil]
          have hall : ∀ x ∈ u', (fun a => !(a == '\n')) x = true := by
            intro x hx
            rw [hu'tw] at hx
            exact List.mem_takeWhile_imp (p := fun a => !(a == '\n')) hx
          have h1 : (('\n' :: z) : Str).takeWhile (fun a => !(a == '\n')) = [] :=
            List.takeWhile_cons_of_neg (by decide)
          have h2 : (('\n' :: z) : Str).dropWhile (fun a => !(a == '\n')) =
              '\n' :: z :=
            List.dropWhile_cons_of_neg (by decide)
          rw [twAppendAll u' ('\n' :: z) hall, dwAppendAll u' ('\n' :: z) hall,
            h1, h2, List.append_nil, List.tail_cons, ← hu'tw]
          rfl
        · have hd : (fun a => !(a == '\n')) d = false := by
            rcases dropWhile_nil_or_head_false (p := fun a => !(a == '\n')) u' with
              h0 | ⟨d', w', hdw', hd'⟩
            · rw [h0] at hdw
              exact List.noConfusion hdw
            · rw [hdw'] at hdw
              injection hdw with h1 h2
              subst h1
              exact hd'
          have hdnl : d = '\n' := by simpa using hd
          subst hdnl
          have hu'eq : u' = u'.takeWhile (fun a => !(a == '\n')) ++ '\n' :: w := by
            conv_lhs => rw [← List.takeWhile_append_dropWhile
              (fun a => !(a == '\n')) u']
            rw [hdw]
          have htwall : ∀ x ∈ u'.takeWhile (fun a => !(a == '\n')),
              (fun a => !(a == '\n')) x = true :=
            fun x hx => List.mem_takeWhile_imp (p := fun a => !(a == '\n')) hx
          have htw : (u' ++ '\n' :: z).takeWhile (fun a => !(a == '\n')) =
              u'.takeWhile (fun a => !(a == '\n')) := by
            conv_lhs => rw [hu'eq]
            rw [List.append_assoc, List.cons_append,
              twAppendAll _ _ htwall,
              List.takeWhile_cons_of_neg (p := fun a => !(a == '\n')) (by decide),
              List.append_nil]
          have hdw2 : (u' ++ '\n' :: z).dropWhile (fun a => !(a == '\n')) =
              '\n' :: (w ++ '\n' :: z) := by
            conv_lhs => rw [hu'eq]
            rw [List.append_assoc, List.cons_append,
              dwAppendAll _ _ htwall,
              List.dropWhile_cons_of_neg (p := fun a => !(a == '\n')) (by decide)]
          have hwlen : w.length ≤ fuel := by
            have hu'len : u'.length ≤ fuel := Nat.le_of_succ_le_succ hu
            have hlen := congrArg List.length hu'eq
            rw [List.length_append, List.length_cons] at hlen
            omega
          rw [htw, hdw2, List.tail_cons, List.tail_cons, ih w z hwlen]
          rfl

theorem neLines_of_nl_free (l : Str) (h : ∀ x ∈ l, (x == '\n') = false) :
    neLines l = if l.isEmpty then [] else [l] := by
  cases l with
  | nil => rfl
  | cons c t =>
    have hc : (c == '\n') = false := h c (List.mem_cons_self _ _)
    have hall : ∀ x ∈ t, (fun a => !(a == '\n')) x = true := by
      intro x hx
      have hx' := h x (List.mem_cons_of_mem _ hx)
      show (!(x == '\n')) = true
      rw [hx']
      rfl
    rw [neLines_cons _ hc, takeWhile_all t hall, dropWhile_all t hall]
    rfl

theorem neLines_joinNl : ∀ (ls : List Str),
    (∀ l ∈ ls, ∀ x ∈ l, (x == '\n') = false) →
      neLines (joinNl ls) = ls.filter (fun l => !l.isEmpty) := by
  intro ls
  induction ls with
  | nil => intro; rfl
  | cons l ls ih =>
    intro h
    have hl : ∀ x ∈ l, (x == '\n') = false := h l (List.mem_cons_self _ _)
    cases ls with
    | nil =>
      show neLines l = List.filter (fun l => !l.isEmpty) [l]
      rw [neLines_of_nl_free l hl]
      cases hle : l.isEmpty with
      | true =>
        rw [if_pos rfl]
        simp only [List.filter_cons, hle, Bool.not_true, Bool.false_eq_true,
          if_false]
        rfl
      | false =>
        rw [if_neg Bool.false_ne_true]
        simp only [List.filter_cons, hle, Bool.not_false, if_true]
        rfl
    | cons l2 ls2 =>
      show neLines (l ++ '\n' :: joinNl (l2 :: ls2)) = _
      rw [neLines_append_nl l.length l _ le_rfl,
        ih (fun m hm => h m (List.mem_cons_of_mem _ hm)),
        neLines_of_nl_free l hl]
      cases hle : l.isEmpty with
      | true =>
        rw [if_pos rfl, List.nil_append]
        simp only [List.filter_cons, hle, Bool.not_true, Bool.false_eq_true,
          if_false]
      | false =>
        rw [if_neg Bool.false_ne_true]
        simp only [List.filter_cons, hle, Bool.not_false, if_true]
        rfl

theorem splitNlGo_eq : ∀ (t acc : Str),
    splitNlGo t acc = (acc.reverse ++ (splitNl t).headI) :: (splitNl t).tail := by
  intro t
  induction t with
  | nil =>
    intro acc
    show [acc.reverse] = (acc.reverse ++ []) :: []
    rw [List.append_nil]
  | cons c t ih =>
    intro acc
    cases hc : (c == '\n') with
    | true =>
      have hceq : c = '\n' := by simpa using hc
      subst hceq
      show acc.reverse :: splitNlGo t [] = (acc.reverse ++ []) :: splitNlGo t []
      rw [List.append_nil]
    | false =>
      have hstep : splitNlGo (c :: t) acc = splitNlGo t (c :: acc) := by
        rw [splitNlGo, hc]
        simp only [Bool.false_eq_true, if_false]
      have hstep2 : splitNl (c :: t) = splitNlGo t [c] := by
        rw [show splitNl (c :: t) = splitNlGo (c :: t) [] from rfl, splitNlGo, hc]
        simp only [Bool.false_eq_true, if_false]
      rw [hstep, ih (c :: acc), hstep2, ih [c], List.reverse_cons,
        List.append_assoc]
      rfl

theorem splitNl_cons_nl (t : Str) : splitNl ('\n' :: t) = [] :: splitNl t := rfl

theorem splitNl_cons {c : Char} (t : Str) (hc : (c == '\n') = false) :
    splitNl (c :: t) = (c :: (splitNl t).headI) :: (splitNl t).tail := by
  have hstep2 : splitNl (c :: t) = splitNlGo t [c] := by
    rw [show splitNl (c :: t) = splitNlGo (c :: t) [] from rfl, splitNlGo, hc]
    simp only [Bool.false_eq_true, if_false]
  rw [hstep2, splitNlGo_eq t [c]]
  rfl

theorem headI_splitNl : ∀ t : Str,
    (splitNl t).headI = t.takeWhile (fun a => !(a == '\n')) := by
  intro t
  induction t with
  | nil => rfl
  | cons c t ih =>
    cases hc : (c == '\n') with
    | true =>
      have hceq : c = '\n' := by simpa using hc
      subst hceq
      rw [splitNl_cons_nl, List.takeWhile_cons_of_neg (by decide)]
      rfl
    | false =>
      rw [splitNl_cons t hc]
      show c :: (splitNl t).headI = _
      rw [List.takeWhile_cons_of_pos (p := fun a => !(a == '\n'))
        (by
          show (!(c == '\n')) = true
          rw [hc]
          rfl), ih]

theorem splitNl_ne_nil (s : Str) : splitNl s ≠ [] := by
  rw [show splitNl s = splitNlGo s [] from rfl, splitNlGo_eq s []]
  exact List.cons_ne_nil _ _

theorem mem_of_tail {α : Type} {l : List α} {a : α} (h : a ∈ l.tail) :
    a ∈ l := by
  cases l with
  | nil => exact absurd h (List.not_mem_nil a)
  | cons b t => exact List.mem_cons_of_mem b h

theorem splitNl_lines_nl_free : ∀ (s : Str), ∀ l ∈ splitNl s, ∀ x ∈ l,
    (x == '\n') = false := by
  intro s
  induction s with
  | nil =>
    intro l hl x hx
    rw [show splitNl ([] : Str) = [([] : Str)] from rfl] at hl
    have hle : l = [] := List.mem_singleton.mp hl
    subst hle
    exact absurd hx (List.not_mem_nil x)
  | cons c t ih =>
    intro l hl x hx
    cases hc : (c == '\n') with
    | true =>
      have hceq : c = '\n' := by simpa using hc
      subst hceq
      rw [splitNl_cons_nl] at hl
      rcases List.mem_cons.mp hl with h1 | h2
      · subst h1
        exact absurd hx (List.not_mem_nil x)
      · exact ih l h2 x hx
    | false =>
      rw [splitNl_cons t hc] at hl
      rcases List.mem_cons.mp hl with h1 | h2
      · subst h1
        rcases List.mem_cons.mp hx with h3 | h4
        · subst h3
          exact hc
        · rw [headI_splitNl] at h4
          have hx' := List.mem_takeWhile_imp (p := fun a => !(a == '\n')) h4
          simpa using hx'
      · exact ih l (mem_of_tail h2) x hx

theorem blankLineF_cases (l : Str) : blankLineF l = l ∨ blankLineF l = [] := by
  simp only [blankLineF]
  split
  · exact Or.inr rfl
  · exact Or.inl rfl

theorem blankLineF_nl_free {l : Str} (h : ∀ x ∈ l, (x == '\n') = false) :
    ∀ x ∈ blankLineF l, (x == '\n') = false := by
  rcases blankLineF_cases l with he | he <;> rw [he]
  · exact h
  · intro x hx
    exact absurd hx (List.not_mem_nil x)

theorem rbGo_le {p : Char → Bool} {k : Nat} : ∀ (t : Str) (cnt : Nat),
    runBoundedGo p k t cnt = true → cnt ≤ k := by
  intro t
  induction t with
  | nil =>
    intro cnt h
    exact of_decide_eq_true h
  | cons c t ih =>
    intro cnt h
    cases hc : p c with
    | true =>
      rw [runBoundedGo, hc, if_pos rfl] at h
      have := ih (cnt + 1) h
      omega
    | false =>
      rw [runBoundedGo, hc, if_neg Bool.false_ne_true, Bool.and_eq_true] at h
      exact of_decide_eq_true h.1

theorem rbGo_mono {p : Char → Bool} {k : Nat} : ∀ (t : Str) (cnt cnt' : Nat),
    cnt' ≤ cnt → runBoundedGo p k t cnt = true →
      runBoundedGo p k t cnt' = true := by
  intro t
  induction t with
  | nil =>
    intro cnt cnt' hle h
    exact decide_eq_true (le_trans hle (of_decide_eq_true h))
  | cons c t ih =>
    intro cnt cnt' hle h
    cases hc : p c with
    | true =>
      rw [runBoundedGo, hc, if_pos rfl] at h ⊢
      exact ih (cnt + 1) (cnt' + 1) (Nat.succ_le_succ hle) h
    | false =>
      rw [runBoundedGo, hc, if_neg Bool.false_ne_true, Bool.and_eq_true] at h ⊢
      exact ⟨decide_eq_true (le_trans hle (of_decide_eq_true h.1)), h.2⟩

theorem rbGo_suffix {p : Char → Bool} {k : Nat} : ∀ (a : Str) (cnt : Nat)
    (t : Str), runBoundedGo p k (a ++ t) cnt = true →
      runBoundedGo p k t 0 = true := by
  intro a
  induction a with
  | nil =>
    intro cnt t h
    exact rbGo_mono t cnt 0 (Nat.zero_le cnt) h
  | cons c a' ih =>
    intro cnt t h
    rw [List.cons_append] at h
    cases hc : p c with
    | true =>
      rw [runBoundedGo, hc, if_pos rfl] at h
      exact ih (cnt + 1) t h
    | false =>
      rw [runBoundedGo, hc, if_neg Bool.false_ne_true, Bool.and_eq_true] at h
      exact ih 0 t h.2

theorem rbGo_front {p : Char → Bool} {k : Nat} : ∀ (u b : Str) (cnt : Nat),
    runBoundedGo p k (u ++ b) cnt = true →
      runBoundedGo p k u cnt = true := by
  intro u
  induction u with
  | nil =>
    intro b cnt h
    exact decide_eq_true (rbGo_le b cnt h)
  | cons c u' ih =>
    intro b cnt h
    rw [List.cons_append] at h
    cases hc : p c with
    | true =>
      rw [runBoundedGo, hc, if_pos rfl] at h ⊢
      exact ih b (cnt + 1) h
    | false =>
      rw [runBoundedGo, hc, if_neg Bool.false_ne_true, Bool.and_eq_true] at h ⊢
      exact ⟨h.1, ih b 0 h.2⟩

theorem rbGo_prepend_nonp {p : Char → Bool} {k : Nat} : ∀ (u rest : Str),
    (∀ c ∈ u, p c = false) →
      runBoundedGo p k (u ++ rest) 0 = runBoundedGo p k rest 0 := by
  intro u
  induction u with
  | nil => intro rest _; rfl
  | cons c u' ih =>
    intro rest h
    have hc := h c (List.mem_cons_self _ _)
    rw [List.cons_append, runBoundedGo, hc, if_neg Bool.false_ne_true,
      decide_eq_true (Nat.zero_le k), Bool.true_and]
    exact ih rest (fun x hx => h x (List.mem_cons_of_mem _ hx))

theorem rb_of_all_nonp {p : Char → Bool} {k : Nat} (x : Str)
    (h : ∀ c ∈ x, p c = false) : runBounded p k x = true := by
  show runBoundedGo p k x 0 = true
  rw [show x = x ++ [] from (List.append_nil x).symm, rbGo_prepend_nonp x [] h]
  exact decide_eq_true (Nat.zero_le k)

theorem rbGo_all_p {p : Char → Bool} {k : Nat} : ∀ (A w : Str) (cnt : Nat),
    (∀ c ∈ A, p c = true) →
      runBoundedGo p k (A ++ w) cnt = runBoundedGo p k w (cnt + A.length) := by
  intro A
  induction A with
  | nil => intro w cnt _; rfl
  | cons c A' ih =>
    intro w cnt h
    have hc := h c (List.mem_cons_self _ _)
    rw [List.cons_append, runBoundedGo, hc, if_pos rfl,
      ih w (cnt + 1) (fun x hx => h x (List.mem_cons_of_mem _ hx)),
      List.length_cons, show cnt + 1 + A'.length = cnt + (A'.length + 1) from by
        omega]

theorem rbGo_brk {p : Char → Bool} {k : Nat} (A w : Str)
    (hAne : A ≠ []) (hAall : ∀ c ∈ A, p c = false)
    (hw : runBoundedGo p k w 0 = true) :
    ∀ (u : Str) (cnt : Nat), runBoundedGo p k u cnt = true →
      runBoundedGo p k (u ++ A ++ w) cnt = true := by
  intro u
  induction u with
  | nil =>
    intro cnt hu
    cases A with
    | nil => exact absurd rfl hAne
    | cons a A' =>
      have ha := hAall a (List.mem_cons_self _ _)
      rw [List.nil_append, List.cons_append, runBoundedGo, ha,
        if_neg Bool.false_ne_true, Bool.and_eq_true]
      refine ⟨hu, ?_⟩
      rw [rbGo_prepend_nonp A' w (fun x hx => hAall x (List.mem_cons_of_mem _ hx))]
      exact hw
  | cons c u' ih =>
    intro cnt hu
    cases hc : p c with
    | true =>
      rw [runBoundedGo, hc, if_pos rfl] at hu
      show runBoundedGo p k (c :: (u' ++ A ++ w)) cnt = true
      rw [runBoundedGo, hc, if_pos rfl]
      exact ih (cnt + 1) hu
    | false =>
      rw [runBoundedGo, hc, if_neg Bool.false_ne_true, Bool.and_eq_true] at hu
      show runBoundedGo p k (c :: (u' ++ A ++ w)) cnt = true
      rw [runBoundedGo, hc, if_neg Bool.false_ne_true, Bool.and_eq_true]
      exact ⟨hu.1, ih 0 hu.2⟩

theorem neLines_decomp (t : Str) :
    neLines t =
      (if (t.takeWhile (fun a => !(a == '\n'))).isEmpty then []
       else [t.takeWhile (fun a => !(a == '\n'))]) ++
        neLines ((t.dropWhile (fun a => !(a == '\n'))).tail) :=
  neLinesGo_eq t []

theorem neLines_tail_append : ∀ (u y : Str), ∃ pre : List Str,
    neLines (((u ++ y).dropWhile (fun a => !(a == '\n'))).tail) =
      pre ++ neLines ((y.dropWhile (fun a => !(a == '\n'))).tail) := by
  intro u
  induction u with
  | nil => exact fun y => ⟨[], rfl⟩
  | cons a u' ih =>
    intro y
    cases ha : (a == '\n') with
    | true =>
      have haeq : a = '\n' := by simpa using ha
      subst haeq
      rw [List.cons_append,
        List.dropWhile_cons_of_neg (p := fun a => !(a == '\n')) (by decide),
        List.tail_cons, neLines_decomp (u' ++ y)]
      rcases ih y with ⟨pre', hpre'⟩
      rw [hpre']
      exact ⟨(if ((u' ++ y).takeWhile (fun a => !(a == '\n'))).isEmpty then []
        else [(u' ++ y).takeWhile (fun a => !(a == '\n'))]) ++ pre',
        by rw [List.append_assoc]⟩
    | false =>
      rw [List.cons_append,
        List.dropWhile_cons_of_pos (p := fun a => !(a == '\n')) (by
          show (!(a == '\n')) = true
          rw [ha]
          rfl)]
      exact ih y

theorem mem_neLines_append (u y : Str) (ln : Str)
    (h : ln ∈ neLines ((y.dropWhile (fun a => !(a == '\n'))).tail)) :
    ln ∈ neLines (u ++ y) := by
  rw [neLines_decomp (u ++ y)]
  rcases neLines_tail_append u y with ⟨pre, hpre⟩
  rw [hpre]
  exact List.mem_append.mpr (Or.inr (List.mem_append.mpr (Or.inr h)))

theorem spaceTab_false_of_pyWs_false {c : Char} (h : pyWsChar c = false) :
    spaceTabChar c = false := by
  cases hst : spaceTabChar c with
  | false => rfl
  | true =>
    exfalso
    have hm : c ∈ ([' ', '\t'] : List Char) := of_decide_eq_true hst
    have hm' : c ∈ ([' ', '\t', '\n', '\r', '\x0b', '\x0c'] : List Char) := by
      rcases List.mem_cons.mp hm with rfl | hm2
      · exact List.mem_cons_self _ _
      · rcases List.mem_cons.mp hm2 with rfl | hm3
        · exact List.mem_cons_of_mem _ (List.mem_cons_self _ _)
        · exact absurd hm3 (List.not_mem_nil c)
    have h' : decide
        (c ∈ ([' ', '\t', '\n', '\r', '\x0b', '\x0c'] : List Char)) = false := h
    rw [decide_eq_true hm'] at h'
    exact Bool.noConfusion h'

theorem length_dropWhile_le {p : Char → Bool} : ∀ t : Str,
    (t.dropWhile p).length ≤ t.length := by
  intro t
  induction t with
  | nil => exact le_rfl
  | cons c t ih =>
    rw [List.dropWhile_cons]
    split
    · exact le_trans ih (Nat.le_succ _)
    · exact le_rfl

theorem collapse_nil {p : Char → Bool} {n : Nat} (repl : Str) (hn : 0 < n) :
    collapseRunsBy p n repl [] = [] := by
  show flushRun n repl [] = []
  rw [flushRun, if_neg (by simp; omega)]
  rfl

theorem collapse_all_nonp {p : Char → Bool} {n : Nat} (repl : Str) (hn : 0 < n)
    (x : Str) (h : ∀ c ∈ x, p c = false) :
    collapseRunsBy p n repl x = x := by
  have hs := collapseRunsBy_skip n repl hn x [] h
  rw [List.append_nil] at hs
  rw [hs, collapse_nil repl hn, List.append_nil]

theorem collapse_decomp {p : Char → Bool} (n : Nat) (repl : Str) (hn : 0 < n)
    (x : Str) :
    (∀ c ∈ x, p c = false) ∨
    ∃ u c z A, x = u ++ c :: z ∧ (∀ ch ∈ u, p ch = false) ∧ p c = true ∧
      (A = repl ∨ (A = c :: z.takeWhile p ∧ A.length < n)) ∧
      collapseRunsBy p n repl x =
        u ++ (A ++ collapseRunsBy p n repl (z.dropWhile p)) ∧
      z.length + 1 ≤ x.length := by
  rcases dropWhile_nil_or_head_false (p := fun a => !(p a)) x with h0 | ⟨c, z, hdw, hc⟩
  · left
    intro ch hch
    have hx : x = x.takeWhile (fun a => !(p a)) := by
      conv_lhs => rw [← List.takeWhile_append_dropWhile (fun a => !(p a)) x]
      rw [h0, List.append_nil]
    rw [hx] at hch
    have := List.mem_takeWhile_imp (p := fun a => !(p a)) hch
    simpa using this
  · right
    have hcp : p c = true := by simpa using hc
    have hxeq : x = x.takeWhile (fun a => !(p a)) ++ c :: z := by
      conv_lhs => rw [← List.takeWhile_append_dropWhile (fun a => !(p a)) x]
      rw [hdw]
    have hunp : ∀ ch ∈ x.takeWhile (fun a => !(p a)), p ch = false := by
      intro ch hch
      have := List.mem_takeWhile_imp (p := fun a => !(p a)) hch
      simpa using this
    have hlen : z.length + 1 ≤ x.length := by
      have := congrArg List.length hxeq
      rw [List.length_append, List.length_cons] at this
      omega
    by_cases hcond : n ≤ ((c :: z.takeWhile p) : Str).length
    · refine ⟨_, c, z, repl, hxeq, hunp, hcp, Or.inl rfl, ?_, hlen⟩
      conv_lhs => rw [hxeq]
      rw [collapseRunsBy_skip n repl hn _ _ hunp,
        collapseRunsBy_run n repl z hcp hn, if_pos hcond]
    · refine ⟨_, c, z, c :: z.takeWhile p, hxeq, hunp, hcp,
        Or.inr ⟨rfl, by omega⟩, ?_, hlen⟩
      conv_lhs => rw [hxeq]
      rw [collapseRunsBy_skip n repl hn _ _ hunp,
        collapseRunsBy_run n repl z hcp hn, if_neg hcond]

theorem neLines_collapse_nl : ∀ (fuel : Nat) (x : Str), x.length ≤ fuel →
    neLines (collapseRunsBy (fun c => c == '\n') 3 ['\n', '\n'] x) =
      neLines x := by
  intro fuel
  induction fuel with
  | zero =>
    intro x hx
    cases x with
    | nil => rw [collapse_nil _ (by norm_num)]
    | cons a b => simp at hx
  | succ fuel ih =>
    intro x hx
    rcases collapse_decomp 3 ['\n', '\n'] (by norm_num) x with hall |
      ⟨u, c, z, A, hxeq, hunp, hcp, hAor, hceq, hlenz⟩
    · rw [collapse_all_nonp _ (by norm_num) x hall]
    · have hcnl : c = '\n' := by simpa using hcp
      have hAnl : ∀ y ∈ A, y = '\n' := by
        rcases hAor with rfl | ⟨rfl, _⟩
        · intro y hy
          rcases List.mem_cons.mp hy with rfl | hy2
          · rfl
          · rcases List.mem_cons.mp hy2 with rfl | hy3
            · rfl
            · exact absurd hy3 (List.not_mem_nil y)
        · intro y hy
          rcases List.mem_cons.mp hy with rfl | hy2
          · exact hcnl
          · have := List.mem_takeWhile_imp (p := fun c => c == '\n') hy2
            simpa using this
      have hAsh : ∃ a', A = '\n' :: a' ∧ ∀ y ∈ a', y = '\n' := by
        rcases hAor with rfl | ⟨rfl, _⟩
        · exact ⟨['\n'], rfl, by decide⟩
        · refine ⟨z.takeWhile (fun c => c == '\n'), ?_, ?_⟩
          · rw [hcnl]
          · intro y hy
            have := List.mem_takeWhile_imp (p := fun c => c == '\n') hy
            simpa using this
      rcases hAsh with ⟨a', hAeq, ha'⟩
      have hfuel : ((z.dropWhile (fun c => c == '\n')).length) ≤ fuel := by
        have h1 := length_dropWhile_le (p := fun c => c == '\n') z
        omega
      rw [hceq, hAeq, List.cons_append,
        neLines_append_nl u.length u _ le_rfl,
        neLines_nl_run a' _ ha',
        ih (z.dropWhile (fun c => c == '\n')) hfuel]
      conv_rhs => rw [hxeq, hcnl]
      rw [neLines_append_nl u.length u z le_rfl]
      congr 1
      conv_rhs => rw [← List.takeWhile_append_dropWhile (fun c => c == '\n') z]
      rw [neLines_nl_run _ _ (fun y hy => by
        have := List.mem_takeWhile_imp (p := fun c => c == '\n') hy
        simpa using this)]

theorem rbGo_block {p : Char → Bool} {k : Nat} (u A C : Str)
    (hu : ∀ ch ∈ u, p ch = false) (hA : ∀ ch ∈ A, p ch = true)
    (hAlen : A.length ≤ k)
    (hC : C = [] ∨ ∃ d w, C = d :: w ∧ p d = false)
    (hCrb : runBoundedGo p k C 0 = true) :
    runBoundedGo p k (u ++ (A ++ C)) 0 = true := by
  rw [rbGo_prepend_nonp u _ hu, rbGo_all_p A C 0 hA, Nat.zero_add]
  rcases hC with rfl | ⟨d, w, rfl, hdp⟩
  · exact decide_eq_true hAlen
  · rw [runBoundedGo, hdp, if_neg Bool.false_ne_true, Bool.and_eq_true]
    refine ⟨decide_eq_true hAlen, ?_⟩
    rw [runBoundedGo, hdp, if_neg Bool.false_ne_true, Bool.and_eq_true] at hCrb
    exact hCrb.2

theorem rb_collapse_self {p : Char → Bool} {k : Nat} (repl : Str)
    (hrepl : ∀ c ∈ repl, p c = true) (hlen : repl.length ≤ k) :
    ∀ (fuel : Nat) (x : Str), x.length ≤ fuel →
      runBounded p k (collapseRunsBy p (k + 1) repl x) = true := by
  intro fuel
  induction fuel with
  | zero =>
    intro x hx
    cases x with
    | nil =>
      rw [collapse_nil _ (Nat.succ_pos k)]
      exact decide_eq_true (Nat.zero_le k)
    | cons a b => simp at hx
  | succ fuel ih =>
    intro x hx
    rcases collapse_decomp (k + 1) repl (Nat.succ_pos k) x with hall |
      ⟨u, c, z, A, hxeq, hunp, hcp, hAor, hceq, hlenz⟩
    · rw [collapse_all_nonp _ (Nat.succ_pos k) x hall]
      exact rb_of_all_nonp x hall
    · have hAp : ∀ ch ∈ A, p ch = true := by
        rcases hAor with rfl | ⟨rfl, _⟩
        · exact hrepl
        · intro ch hch
          rcases List.mem_cons.mp hch with rfl | h2
          · exact hcp
          · exact List.mem_takeWhile_imp (p := p) h2
      have hAlen : A.length ≤ k := by
        rcases hAor with rfl | ⟨rfl, hlt⟩
        · exact hlen
        · omega
      have hfuel : (z.dropWhile p).length ≤ fuel := by
        have h1 := length_dropWhile_le (p := p) z
        omega
      have hCsh := collapseRunsBy_head (k + 1) repl (Nat.succ_pos k)
        (z.dropWhile p) (dropWhile_nil_or_head_false z)
      rw [hceq]
      exact rbGo_block u A _ hunp hAp hAlen hCsh (ih (z.dropWhile p) hfuel)

theorem rb_collapse_other {p q : Char → Bool} {k n : Nat} (repl : Str)
    (hn : 0 < n) (hrne : repl ≠ [])
    (hpq : ∀ c, p c = true → q c = false)
    (hrepl : ∀ c ∈ repl, q c = false) :
    ∀ (fuel : Nat) (x : Str), x.length ≤ fuel →
      runBounded q k x = true →
      runBounded q k (collapseRunsBy p n repl x) = true := by
  intro fuel
  induction fuel with
  | zero =>
    intro x hx hrb
    cases x with
    | nil =>
      rw [collapse_nil _ hn]
      exact hrb
    | cons a b => simp at hx
  | succ fuel ih =>
    intro x hx hrb
    rcases collapse_decomp n repl hn x with hall |
      ⟨u, c, z, A, hxeq, hunp, hcp, hAor, hceq, hlenz⟩
    · rw [collapse_all_nonp _ hn x hall]
      exact hrb
    · have hrbu : runBoundedGo q k u 0 = true := by
        rw [hxeq] at hrb
        exact rbGo_front u (c :: z) 0 hrb
      have hrbz : runBoundedGo q k (z.dropWhile p) 0 = true := by
        rw [hxeq] at hrb
        have h1 : runBoundedGo q k (c :: z) 0 = true := rbGo_suffix u 0 _ hrb
        have h2 : runBoundedGo q k z 0 = true := rbGo_suffix [c] 0 z h1
        have h3 : runBoundedGo q k (z.takeWhile p ++ z.dropWhile p) 0 = true := by
          rw [List.takeWhile_append_dropWhile]
          exact h2
        exact rbGo_suffix _ 0 _ h3
      have hfuel : (z.dropWhile p).length ≤ fuel := by
        have h1 := length_dropWhile_le (p := p) z
        omega
      have hAne : A ≠ [] := by
        rcases hAor with rfl | ⟨rfl, _⟩
        · exact hrne
        · exact List.cons_ne_nil _ _
      have hAnq : ∀ ch ∈ A, q ch = false := by
        rcases hAor with rfl | ⟨rfl, _⟩
        · exact hrepl
        · intro ch hch
          rcases List.mem_cons.mp hch with rfl | h2
          · exact hpq ch hcp
          · exact hpq ch (List.mem_takeWhile_imp (p := p) h2)
      rw [hceq, ← List.append_assoc]
      exact rbGo_brk A _ hAne hAnq (ih (z.dropWhile p) hfuel hrbz) u 0 hrbu

theorem splitNl_decomp : ∀ (s : Str), ∀ l ∈ splitNl s, ∃ a b,
    s = a ++ l ++ b := by
  intro s
  induction s with
  | nil =>
    intro l hl
    rw [show splitNl ([] : Str) = [([] : Str)] from rfl] at hl
    have hle : l = [] := List.mem_singleton.mp hl
    subst hle
    exact ⟨[], [], rfl⟩
  | cons c t ih =>
    intro l hl
    cases hc : (c == '\n') with
    | true =>
      have hceq : c = '\n' := by simpa using hc
      subst hceq
      rw [splitNl_cons_nl] at hl
      rcases List.mem_cons.mp hl with rfl | h2
      · exact ⟨[], '\n' :: t, rfl⟩
      · rcases ih l h2 with ⟨a, b, hab⟩
        exact ⟨'\n' :: a, b, by rw [List.cons_append, List.cons_append, ← hab]⟩
    | false =>
      rw [splitNl_cons t hc] at hl
      rcases List.mem_cons.mp hl with rfl | h2
      · refine ⟨[], t.dropWhile (fun a => !(a == '\n')), ?_⟩
        rw [headI_splitNl]
        show c :: t = c :: (t.takeWhile (fun a => !(a == '\n')) ++
          t.dropWhile (fun a => !(a == '\n')))
        rw [List.takeWhile_append_dropWhile]
      · rcases ih l (mem_of_tail h2) with ⟨a, b, hab⟩
        exact ⟨c :: a, b, by rw [List.cons_append, List.cons_append, ← hab]⟩

theorem rstrip_last : ∀ s : Str, rstripWs s = [] ∨
    ∃ x' e, rstripWs s = x' ++ [e] ∧ pyWsChar e = false := by
  intro s
  induction s with
  | nil => exact Or.inl rfl
  | cons c t ih =>
    rw [rstripWs]
    cases hrt : rstripWs t with
    | nil =>
      cases hpc : pyWsChar c with
      | true => exact Or.inl (if_pos rfl)
      | false => exact Or.inr ⟨[], c, if_neg Bool.false_ne_true, hpc⟩
    | cons r0 rt =>
      rcases ih with h0 | ⟨x', e, hxe, hpe⟩
      · rw [hrt] at h0
        exact absurd h0 (List.cons_ne_nil _ _)
      · rw [hrt] at hxe
        refine Or.inr ⟨c :: x', e, ?_, hpe⟩
        show c :: r0 :: rt = (c :: x') ++ [e]
        rw [hxe]
        rfl

theorem rstrip_decomp : ∀ s : Str, ∃ w, s = rstripWs s ++ w ∧
    ∀ ch ∈ w, pyWsChar ch = true := by
  intro s
  induction s with
  | nil => exact ⟨[], rfl, fun ch hch => absurd hch (List.not_mem_nil ch)⟩
  | cons c t ih =>
    rcases ih with ⟨w, hw, hall⟩
    rw [rstripWs]
    cases hrt : rstripWs t with
    | nil =>
      rw [hrt, List.nil_append] at hw
      cases hpc : pyWsChar c with
      | true =>
        refine ⟨c :: w, ?_, ?_⟩
        · show c :: t = [] ++ c :: w
          rw [List.nil_append, hw]
        · intro ch hch
          rcases List.mem_cons.mp hch with rfl | h2
          · exact hpc
          · exact hall ch h2
      | false =>
        refine ⟨w, ?_, hall⟩
        show c :: t = c :: w
        rw [hw]
    | cons r0 rt =>
      rw [hrt] at hw
      refine ⟨w, ?_, hall⟩
      show c :: t = (c :: r0 :: rt) ++ w
      rw [hw]
      rfl

theorem rstrip_concat_nonws {e : Char} (he : pyWsChar e = false) :
    ∀ x' : Str, rstripWs (x' ++ [e]) = x' ++ [e] := by
  intro x'
  induction x' with
  | nil =>
    show rstripWs [e] = [e]
    rw [rstripWs]
    show (if pyWsChar e then [] else [e]) = [e]
    rw [he, if_neg Bool.false_ne_true]
  | cons a x'' ih =>
    show rstripWs (a :: (x'' ++ [e])) = a :: (x'' ++ [e])
    rw [rstripWs, ih]
    cases x'' with
    | nil => rfl
    | cons b y => rfl

theorem pyStrip_of_ends (x : Str)
    (hhead : x = [] ∨ ∃ c t, x = c :: t ∧ pyWsChar c = false)
    (hlast : x = [] ∨ ∃ x' e, x = x' ++ [e] ∧ pyWsChar e = false) :
    pyStrip x = x := by
  rcases hhead with rfl | ⟨c, t, rfl, hpc⟩
  · rfl
  rcases hlast with h0 | ⟨x', e, hxe, hpe⟩
  · exact absurd h0 (List.cons_ne_nil c t)
  · show rstripWs (lstripWs (c :: t)) = c :: t
    have hl : lstripWs (c :: t) = c :: t :=
      List.dropWhile_cons_of_neg (by rw [hpc]; exact Bool.false_ne_true)
    rw [hl, hxe]
    exact rstrip_concat_nonws hpe x'

theorem lstrip_head (s : Str) : lstripWs s = [] ∨
    ∃ c t, lstripWs s = c :: t ∧ pyWsChar c = false :=
  dropWhile_nil_or_head_false s

theorem pyStrip_idem (s : Str) : pyStrip (pyStrip s) = pyStrip s := by
  rcases lstrip_head s with hl0 | ⟨c, t, hct, hpc⟩
  · have hnil : pyStrip s = [] := by
      show rstripWs (lstripWs s) = []
      rw [hl0]
      rfl
    rw [hnil]
    rfl
  · rcases rstrip_decomp (lstripWs s) with ⟨w, hw, _⟩
    rw [hct] at hw
    rcases rstrip_last (lstripWs s) with h0 | ⟨x', e, hxe, hpe⟩
    · have hnil : pyStrip s = [] := h0
      rw [hnil]
      rfl
    · apply pyStrip_of_ends
      · right
        cases x' with
        | nil =>
          exact ⟨e, [], hxe, hpe⟩
        | cons c0 x'' =>
          have hinj : c = c0 := by
            have hxe' := hxe
            rw [hct] at hxe'
            rw [hxe'] at hw
            injection hw with h1 _
          refine ⟨c0, x'' ++ [e], ?_, ?_⟩
          · show rstripWs (lstripWs s) = c0 :: (x'' ++ [e])
            rw [hxe]
            rfl
          · rw [← hinj]
            exact hpc
      · exact Or.inr ⟨x', e, hxe, hpe⟩

theorem neLines_concat_mem : ∀ (fuel : Nat) (x' : Str), x'.length ≤ fuel →
    ∀ (e : Char), (e == '\n') = false → ∀ (u ln : Str),
      ln ∈ neLines (x' ++ [e]) →
        e ∈ ln ∨ ln ∈ neLines ((x' ++ [e]) ++ u) := by
  intro fuel
  induction fuel with
  | zero =>
    intro x' hx' e he u ln hln
    cases x' with
    | cons a b => simp at hx'
    | nil =>
      rw [List.nil_append] at hln
      rw [neLines_of_nl_free [e] (fun x hx => by
        have hxe : x = e := List.mem_singleton.mp hx
        rw [hxe]
        exact he)] at hln
      rw [show (([e] : Str)).isEmpty = false from rfl,
        if_neg Bool.false_ne_true] at hln
      have hlne : ln = [e] := List.mem_singleton.mp hln
      rw [hlne]
      exact Or.inl (List.mem_cons_self _ _)
  | succ fuel ih =>
    intro x' hx' e he u ln hln
    rcases hdw : x'.dropWhile (fun a => !(a == '\n')) with _ | ⟨d, z⟩
    · have hxtw : x' = x'.takeWhile (fun a => !(a == '\n')) := by
        conv_lhs => rw [← List.takeWhile_append_dropWhile
          (fun a => !(a == '\n')) x']
        rw [hdw, List.append_nil]
      have hx'nf : ∀ ch ∈ x', (ch == '\n') = false := by
        intro ch hch
        rw [hxtw] at hch
        have := List.mem_takeWhile_imp (p := fun a => !(a == '\n')) hch
        simpa using this
      have hfree : ∀ ch ∈ x' ++ [e], (ch == '\n') = false := by
        intro ch hch
        rcases List.mem_append.mp hch with h1 | h1
        · exact hx'nf ch h1
        · have hce : ch = e := List.mem_singleton.mp h1
          rw [hce]
          exact he
      rw [neLines_of_nl_free _ hfree, isEmpty_append_cons x' e [],
        if_neg Bool.false_ne_true] at hln
      have hlne : ln = x' ++ [e] := List.mem_singleton.mp hln
      rw [hlne]
      exact Or.inl (List.mem_append.mpr (Or.inr (List.mem_cons_self _ _)))
    · have hd : d = '\n' := by
        rcases dropWhile_nil_or_head_false (p := fun a => !(a == '\n')) x' with
          h0 | ⟨d', w', hdw', hd'⟩
        · rw [h0] at hdw
          exact List.noConfusion hdw
        · rw [hdw'] at hdw
          injection hdw with h1 h2
          subst h1
          simpa using hd'
      subst hd
      have hx'eq : x' = x'.takeWhile (fun a => !(a == '\n')) ++ '\n' :: z := by
        conv_lhs => rw [← List.takeWhile_append_dropWhile
          (fun a => !(a == '\n')) x']
        rw [hdw]
      have hzfuel : z.length ≤ fuel := by
        have hlen := congrArg List.length hx'eq
        rw [List.length_append, List.length_cons] at hlen
        omega
      have hsplit : x' ++ [e] = x'.takeWhile (fun a => !(a == '\n')) ++
          '\n' :: (z ++ [e]) := by
        conv_lhs => rw [hx'eq]
        rw [List.append_assoc]
        rfl
      have hsplit2 : (x' ++ [e]) ++ u = x'.takeWhile (fun a => !(a == '\n')) ++
          '\n' :: ((z ++ [e]) ++ u) := by
        rw [hsplit, List.append_assoc]
        rfl
      rw [hsplit, neLines_append_nl
        (x'.takeWhile (fun a => !(a == '\n'))).length _ _ le_rfl] at hln
      rcases List.mem_append.mp hln with h1 | h1
      · right
        rw [hsplit2, neLines_append_nl
          (x'.takeWhile (fun a => !(a == '\n'))).length _ _ le_rfl]
        exact List.mem_append.mpr (Or.inl h1)
      · rcases ih z hzfuel e he u ln h1 with h2 | h2
        · exact Or.inl h2
        · right
          rw [hsplit2, neLines_append_nl
            (x'.takeWhile (fun a => !(a == '\n'))).length _ _ le_rfl]
          exact List.mem_append.mpr (Or.inr h2)

theorem lstrip_lines (s ln : Str) (h : ln ∈ neLines (lstripWs s)) :
    (∃ ch ∈ ln, pyWsChar ch = false) ∨ ln ∈ neLines s := by
  rcases lstrip_head s with h0 | ⟨c0, r', hct, hpc⟩
  · rw [h0] at h
    exact absurd h (List.not_mem_nil ln)
  · rw [hct] at h
    have hc0nl : (c0 == '\n') = false := by
      cases hcc : (c0 == '\n') with
      | false => rfl
      | true =>
        have hc0 : c0 = '\n' := by simpa using hcc
        rw [hc0] at hpc
        exact absurd hpc (by decide)
    rw [neLines_cons r' hc0nl] at h
    rcases List.mem_cons.mp h with rfl | h2
    · exact Or.inl ⟨c0, List.mem_cons_self _ _, hpc⟩
    · right
      have hs : s = (s.takeWhile pyWsChar ++ [c0]) ++ r' := by
        conv_lhs => rw [← List.takeWhile_append_dropWhile pyWsChar s]
        rw [show s.dropWhile pyWsChar = c0 :: r' from hct, List.append_assoc]
        rfl
      rw [hs]
      exact mem_neLines_append _ r' ln h2

theorem pyStrip_lines (s ln : Str) (h : ln ∈ neLines (pyStrip s)) :
    (∃ ch ∈ ln, pyWsChar ch = false) ∨ ln ∈ neLines s := by
  rcases rstrip_last (lstripWs s) with h0 | ⟨x', e, hxe, hpe⟩
  · rw [show pyStrip s = rstripWs (lstripWs s) from rfl, h0] at h
    exact absurd h (List.not_mem_nil ln)
  · rw [show pyStrip s = rstripWs (lstripWs s) from rfl, hxe] at h
    have henl : (e == '\n') = false := by
      cases hcc : (e == '\n') with
      | false => rfl
      | true =>
        have he : e = '\n' := by simpa using hcc
        rw [he] at hpe
        exact absurd hpe (by decide)
    rcases rstrip_decomp (lstripWs s) with ⟨w, hw, _⟩
    rw [hxe] at hw
    rcases neLines_concat_mem x'.length x' le_rfl e henl w ln h with h1 | h1
    · exact Or.inl ⟨e, h1, hpe⟩
    · rw [← hw] at h1
      exact lstrip_lines s ln h1

theorem all_false_ex (p : Char → Bool) : ∀ l : Str, l.all p = false →
    ∃ ch ∈ l, p ch = false := by
  intro l
  induction l with
  | nil =>
    intro h
    exact Bool.noConfusion h
  | cons c t ih =>
    intro h
    rw [List.all_cons] at h
    cases hpc : p c with
    | false => exact ⟨c, List.mem_cons_self _ _, hpc⟩
    | true =>
      rw [hpc, Bool.true_and] at h
      rcases ih h with ⟨ch, hm, hp⟩
      exact ⟨ch, List.mem_cons_of_mem _ hm, hp⟩

theorem take_len_le (n : Nat) (l : Str) : (l.take n).length ≤ n := by
  rw [List.length_take]
  exact min_le_left _ _

theorem rb_joinNl {p : Char → Bool} {k : Nat} (hnl : p '\n' = false) :
    ∀ ls : List Str, (∀ l ∈ ls, runBounded p k l = true) →
      runBounded p k (joinNl ls) = true := by
  intro ls
  induction ls with
  | nil =>
    intro _
    exact decide_eq_true (Nat.zero_le k)
  | cons l ls ih =>
    intro h
    cases ls with
    | nil => exact h l (List.mem_cons_self _ _)
    | cons l2 ls2 =>
      show runBoundedGo p k (l ++ '\n' :: joinNl (l2 :: ls2)) 0 = true
      have hw : runBoundedGo p k (joinNl (l2 :: ls2)) 0 = true :=
        ih (fun m hm => h m (List.mem_cons_of_mem _ hm))
      have hb := rbGo_brk ['\n'] (joinNl (l2 :: ls2)) (List.cons_ne_nil _ _)
        (fun c hc => by
          rw [List.mem_singleton.mp hc]
          exact hnl) hw l 0 (h l (List.mem_cons_self _ _))
      rw [List.append_assoc] at hb
      exact hb

theorem rb_splitNl {p : Char → Bool} {k : Nat} (s : Str)
    (h : runBounded p k s = true) :
    ∀ l ∈ splitNl s, runBounded p k l = true := by
  intro l hl
  rcases splitNl_decomp s l hl with ⟨a, b, hab⟩
  rw [hab] at h
  have h' : runBoundedGo p k ((a ++ l) ++ b) 0 = true := h
  exact rbGo_suffix a 0 l (rbGo_front (a ++ l) b 0 h')

theorem rb_pyStrip {p : Char → Bool} {k : Nat} (s : Str)
    (h : runBounded p k s = true) : runBounded p k (pyStrip s) = true := by
  have hl : runBoundedGo p k (lstripWs s) 0 = true := by
    have h2 : runBoundedGo p k
        (s.takeWhile pyWsChar ++ s.dropWhile pyWsChar) 0 = true := by
      rw [List.takeWhile_append_dropWhile]
      exact h
    exact rbGo_suffix _ 0 _ h2
  rcases rstrip_decomp (lstripWs s) with ⟨w, hw, _⟩
  show runBoundedGo p k (rstripWs (lstripWs s)) 0 = true
  apply rbGo_front _ w 0
  rw [← hw]
  exact hl

theorem norm_lines (s : Str) : ∀ ln ∈ neLines (normalize_whitespace s),
    ∃ ch ∈ ln, spaceTabChar ch = false := by
  intro ln hln
  have hln' : ln ∈ neLines (pyStrip (collapseRunsBy (fun c => c == '\n') 3
      ['\n', '\n'] (joinNl ((splitNl (collapseRunsBy hwsChar 2 [' '] s)).map
        blankLineF)))) := hln
  rcases pyStrip_lines _ ln hln' with h1 | h1
  · rcases h1 with ⟨ch, hm, hp⟩
    exact ⟨ch, hm, spaceTab_false_of_pyWs_false hp⟩
  · rw [neLines_collapse_nl
      (joinNl ((splitNl (collapseRunsBy hwsChar 2 [' '] s)).map
        blankLineF)).length _ le_rfl] at h1
    have hnlfree : ∀ l ∈ (splitNl (collapseRunsBy hwsChar 2 [' '] s)).map
        blankLineF, ∀ x ∈ l, (x == '\n') = false := by
      intro l hl
      rcases List.mem_map.mp hl with ⟨l0, hl0, rfl⟩
      exact blankLineF_nl_free (splitNl_lines_nl_free _ l0 hl0)
    rw [neLines_joinNl _ hnlfree] at h1
    have hmem := List.mem_filter.mp h1
    rcases List.mem_map.mp hmem.1 with ⟨l0, hl0, hbl⟩
    have hie : ln.isEmpty = false := by simpa using hmem.2
    by_cases hcond : (!l0.isEmpty && l0.all spaceTabChar) = true
    · exfalso
      have hbl0 : blankLineF l0 = [] := by
        simp [blankLineF, hcond]
      rw [hbl0] at hbl
      rw [← hbl] at hie
      exact Bool.noConfusion hie
    · have hcondf : (!l0.isEmpty && l0.all spaceTabChar) = false := by
        cases h : (!l0.isEmpty && l0.all spaceTabChar) with
        | false => rfl
        | true => exact absurd h hcond
      have hln0 : blankLineF l0 = l0 := by
        simp [blankLineF, hcondf]
      rw [hln0] at hbl
      rw [← hbl] at hie ⊢
      have hall : l0.all spaceTabChar = false := by
        rw [hie] at hcondf
        simpa using hcondf
      exact all_false_ex spaceTabChar l0 hall

theorem norm_rb_nl (s : Str) :
    runBounded (fun c => c == '\n') 2 (normalize_whitespace s) = true := by
  have h3 : runBounded (fun c => c == '\n') 2
      (collapseRunsBy (fun c => c == '\n') 3 ['\n', '\n']
        (joinNl ((splitNl (collapseRunsBy hwsChar 2 [' '] s)).map
          blankLineF))) = true :=
    rb_collapse_self (k := 2) ['\n', '\n'] (by decide) (by decide) _ _ le_rfl
  exact rb_pyStrip _ h3

theorem norm_rb_hws (s : Str) :
    runBounded hwsChar 1 (normalize_whitespace s) = true := by
  have h1 : runBounded hwsChar 1 (collapseRunsBy hwsChar 2 [' '] s) = true :=
    rb_collapse_self (k := 1) [' '] (by decide) (by decide) _ _ le_rfl
  have h2 : runBounded hwsChar 1
      (joinNl ((splitNl (collapseRunsBy hwsChar 2 [' '] s)).map
        blankLineF)) = true := by
    apply rb_joinNl (by decide)
    intro l hl
    rcases List.mem_map.mp hl with ⟨l0, hl0, rfl⟩
    rcases blankLineF_cases l0 with he | he <;> rw [he]
    · exact rb_splitNl _ h1 l0 hl0
    · exact decide_eq_true (Nat.zero_le 1)
  have h3 : runBounded hwsChar 1
      (collapseRunsBy (fun c => c == '\n') 3 ['\n', '\n']
        (joinNl ((splitNl (collapseRunsBy hwsChar 2 [' '] s)).map
          blankLineF))) = true :=
    rb_collapse_other ['\n', '\n'] (by norm_num) (List.cons_ne_nil _ _)
      (fun c hc => by
        have hcn : c = '\n' := by simpa using hc
        rw [hcn]
        decide)
      (by decide) _ _ le_rfl h2
  exact rb_pyStrip _ h3

/-- C10: the corrected normalization contract of
`utils.email_utils.normalize_whitespace` and the snippet cap in
`bounce_parser.extract_bounces`: runs of two or more horizontal
whitespace characters collapse to one space; lines made only of spaces
and tabs become empty, while a lone `\x0b` (or `\r`, `\x0c`) line
survives; in the output every nonempty line has a non-space/tab
character, newline runs are capped at two, horizontal-whitespace runs at
one, the result is strip-idempotent, and the stored body snippets are
plain 1000-character prefixes of the normalized part texts with no
ellipsis marker. -/
theorem c10_amended_normalization :
    normalize_whitespace (("a\t\t b\n   \nc\n\n\n\nd").data) =
      ("a b\n\nc\n\nd").data ∧
    normalize_whitespace (("x\n\x0b\ny").data) = ("x\n\x0b\ny").data ∧
    (∀ s : Str, ∀ ln ∈ neLines (normalize_whitespace s),
      ∃ ch ∈ ln, spaceTabChar ch = false) ∧
    (∀ s : Str, runBounded (fun c => c == '\n') 2 (normalize_whitespace s) =
      true) ∧
    (∀ s : Str, runBounded hwsChar 1 (normalize_whitespace s) = true) ∧
    (∀ s : Str, pyStrip (normalize_whitespace s) = normalize_whitespace s) ∧
    (∀ (ext : Ext) (m : Msg) (folder sa : Str),
      ∀ r ∈ extract_bounces ext m folder sa,
        (r.body_plain =
            (normalize_whitespace (get_separated_body_parts m).1).take 1000 ∧
          r.body_html =
            (normalize_whitespace (get_separated_body_parts m).2.1).take 1000 ∧
          r.body_plain_original =
            (normalize_whitespace
              (get_separated_body_parts m).2.2.1).take 1000 ∧
          r.body_html_original =
            (normalize_whitespace
              (get_separated_body_parts m).2.2.2).take 1000) ∧
        (r.body_plain.length ≤ 1000 ∧ r.body_html.length ≤ 1000 ∧
          r.body_plain_original.length ≤ 1000 ∧
          r.body_html_original.length ≤ 1000)) := by
  refine ⟨by decide, by decide, norm_lines, norm_rb_nl, norm_rb_hws,
    fun s => pyStrip_idem
      (collapseRunsBy (fun c => c == '\n') 3 ['\n', '\n']
        (joinNl ((splitNl (collapseRunsBy hwsChar 2 [' '] s)).map
          blankLineF))), ?_⟩
  intro ext m folder sa r hr
  simp only [extract_bounces] at hr
  by_cases he : (extract_dsn_errors m).isEmpty = true
  · rw [if_pos he] at hr
    exact absurd hr (List.not_mem_nil r)
  · rw [if_neg he] at hr
    rcases List.mem_map.mp hr with ⟨e, he2, rfl⟩
    exact ⟨⟨rfl, rfl, rfl, rfl⟩, take_len_le _ _, take_len_le _ _,
      take_len_le _ _, take_len_le _ _⟩

/-- C10 witness: the corrected normalization contract evaluated at
concrete inputs — the headline example, a nonempty-line check, run
bounds, strip idempotence, and the snippet cap on a concrete bounce. -/
theorem c10_witness :
    normalize_whitespace (("a\t\t b\n   \nc\n\n\n\nd").data) =
      ("a b\n\nc\n\nd").data ∧
    (∃ ch ∈ (("a b").data), spaceTabChar ch = false) ∧
    runBounded (fun c => c == '\n') 2
      (normalize_whitespace (("p\n\n\n\n\nq").data)) = true ∧
    runBounded hwsChar 1 (normalize_whitespace (("p \t  q").data)) = true ∧
    pyStrip (normalize_whitespace (("  r  ").data)) =
      normalize_whitespace (("  r  ").data) ∧
    (extract_bounces extNoop msgDsnExample (("INBOX").data)
      (("me@example.com").data)).headI.body_plain.length ≤ 1000 := by
  refine ⟨c10_amended_normalization.1,
    c10_amended_normalization.2.2.1 (("a b\nc").data) (("a b").data)
      (by decide),
    c10_amended_normalization.2.2.2.1 _,
    c10_amended_normalization.2.2.2.2.1 _,
    c10_amended_normalization.2.2.2.2.2.1 _,
    ?_⟩
  exact (c10_amended_normalization.2.2.2.2.2.2 extNoop msgDsnExample
    (("INBOX").data) (("me@example.com").data)
    ((extract_bounces extNoop msgDsnExample (("INBOX").data)
      (("me@example.com").data)).headI) (by decide)).2.1

/-- C4 witness: a response with an unregistered category token falls back
to the reserved result. -/
theorem c4_witness :
    alookup (classify_error (some (("CATEGORY: gibberish\nREASON: huh").data)))
        (("responsible").data) = some (.s (("unknown").data)) ∧
    alookup (classify_error (some (("CATEGORY: gibberish\nREASON: huh").data)))
        (("is_excluded").data) = some (.b false) ∧
    ∃ r, alookup (classify_error (some (("CATEGORY: gibberish\nREASON: huh").data)))
        (("reason").data) = some (.s r) ∧ r ≠ [] :=
  c4_classify_fallback_unknown _ (Or.inr ⟨_, rfl, Or.inr (by decide)⟩)

end IEMA
